import Mathlib

/-!
# Shallow embedding of the math-scrabble engine

This file embeds the Rust sources of the `math_scrabble` repository
(`src/scrabble.rs`, `src/scrabble_base_types.rs`, `src/term_evaluation.rs`,
`src/command_parsing.rs`) as executable Lean definitions and proves the
specification claims about them.

Modelling conventions:
* Rust `isize` coordinates become `Int`; `i32` evaluator arithmetic is modelled
  as `Int` with an explicit two's-complement wrap (`wrap32`) applied where the
  Rust code performs an `i32` operation.
* Rust panics (`assert!`, `expect`, `unreachable!`, out-of-range indexing) are
  modelled as an explicit `panic` outcome (`Option`/a dedicated constructor),
  never as a silent default value on a path the Rust code could actually reach.
* The unbounded iterator in `collect_to_term_end` is modelled with explicit
  fuel `size + 1`; a lemma below proves the fuel is never exhausted, so the
  fuelled function agrees with the unbounded Rust iterator.
* `frequency` in the source iterates a `HashMap`, whose order is unspecified;
  we fix the canonical first-occurrence order.  All properties proved about
  the frequency list are independent of that order (the sort key is the count
  only, and ties in the relevant positions are handled symmetrically).
-/

/-- `ScrabbleLetter` from `scrabble_base_types.rs`. -/
inductive ScrabbleLetter where
  | num0 | num1 | num2 | num3 | num4 | num5 | num6 | num7 | num8 | num9
  | plus | minus | dot | empty
deriving DecidableEq

/-- The `#[repr(u8)]` discriminant of a letter, used by the Rust cast
`*num as i32` in the evaluator's digit branch. -/
def ScrabbleLetter.reprVal : ScrabbleLetter → Int
  | .num0 => 0 | .num1 => 1 | .num2 => 2 | .num3 => 3 | .num4 => 4
  | .num5 => 5 | .num6 => 6 | .num7 => 7 | .num8 => 8 | .num9 => 9
  | .plus => 10 | .minus => 11 | .dot => 12 | .empty => 13

/-- `ScrabbleLetter::from_char` from `scrabble_base_types.rs`. -/
def ScrabbleLetter.fromChar : Char → Option ScrabbleLetter
  | '0' => some .num0
  | '1' => some .num1
  | '2' => some .num2
  | '3' => some .num3
  | '4' => some .num4
  | '5' => some .num5
  | '6' => some .num6
  | '7' => some .num7
  | '8' => some .num8
  | '9' => some .num9
  | '+' => some .plus
  | '-' => some .minus
  | '*' => some .dot
  | _ => none

/-- The digit letters: the letters the evaluator treats as operands. -/
def ScrabbleLetter.isDigit : ScrabbleLetter → Bool
  | .plus | .minus | .dot | .empty => false
  | _ => true

/-- `Direction` from `scrabble_base_types.rs`. -/
inductive Direction where
  | horizontal
  | vertical
deriving DecidableEq

/-- `Direction::as_vec`. -/
def Direction.asVec : Direction → Int × Int
  | .horizontal => (1, 0)
  | .vertical => (0, 1)

/-- `Direction::orthogonal`. -/
def Direction.orthogonal : Direction → Direction
  | .horizontal => .vertical
  | .vertical => .horizontal

/-- `Position = (isize, isize)`. -/
abbrev Position := Int × Int

/-- `move_position` from `scrabble_base_types.rs`. -/
def movePosition (position : Position) (offset : Int) (direction : Direction) :
    Position :=
  (position.1 + offset * direction.asVec.1, position.2 + offset * direction.asVec.2)

/-- `Placement` from `scrabble_base_types.rs`. -/
structure Placement where
  letters : List ScrabbleLetter
  startPos : Position
  direction : Direction
deriving DecidableEq

/-- `ScrabbleRuntimeError` from `scrabble.rs`. -/
inductive ScrabbleRuntimeError where
  | playerIDOutOfBounds (id : Nat)
  | positionOutOfBounds (pos : Position)
  | invalidPlacement (cause : String)
  | missingLetters
  | blockedSpace
deriving DecidableEq

/-- `Term` from `term_evaluation.rs`. -/
structure Term where
  tokens : List ScrabbleLetter
deriving DecidableEq

/-- `Term::is_singleton`. -/
def Term.isSingleton (t : Term) : Bool :=
  t.tokens.length == 1

/-- Two's-complement wrap to 32 bits: the value of an `i32` arithmetic
result in release mode. -/
def wrap32 (n : Int) : Int :=
  (n + 2 ^ 31) % 2 ^ 32 - 2 ^ 31

/-- `binary_operator` from `term_evaluation.rs`.  The Rust operand stack is a
`Vec` with the top at the back and the pattern `[.., first, second]`; here the
stack is a list with the top at the head, so `first` is the second element and
`second` the head. -/
def binaryOperator (operator : Int → Int → Int) (operatorName : String)
    (operandStack : List Int) : Except String (List Int) :=
  match operandStack with
  | second :: first :: rest => .ok (wrap32 (operator first second) :: rest)
  | _ =>
    .error ("The Operator " ++ operatorName ++
      " expects 2 arguments, but received only " ++
      toString operandStack.length ++ "!")

/-- The token loop of `Term::evaluate`, threading the operand stack. -/
def evalGo : List ScrabbleLetter → List Int → Except String (List Int)
  | [], stack => .ok stack
  | tok :: rest, stack =>
    match tok with
    | .plus => (binaryOperator (fun f s => f + s) "+" stack).bind (evalGo rest)
    | .minus => (binaryOperator (fun f s => f - s) "-" stack).bind (evalGo rest)
    | .dot => (binaryOperator (fun f s => f * s) "*" stack).bind (evalGo rest)
    | .empty => .error "Found empty token in term!"
    | num => evalGo rest (num.reprVal :: stack)

/-- The end-of-scan checks of `Term::evaluate`. -/
def finalizeStack (operandStack : List Int) : Except String Int :=
  if operandStack.length > 1 then
    .error "Unused arguments are left on the stack!"
  else
    match operandStack with
    | [] => .error "Empty operand stack at the end of evaluation!"
    | v :: _ => .ok v

/-- `Term::evaluate` from `term_evaluation.rs`. -/
def Term.evaluate (t : Term) : Except String Int :=
  match evalGo t.tokens [] with
  | .error e => .error e
  | .ok stack => finalizeStack stack

/-- `Owner` from `scrabble.rs`. -/
inductive Owner where
  | none
  | owning (id : Nat)
deriving DecidableEq

/-- `Player` from `scrabble.rs`. -/
structure Player where
  letterBag : List ScrabbleLetter
  score : Int
deriving DecidableEq

/-- The loop body of `Player::try_consume`, acting on the working copy of the
bag: remove the first instance of each requested letter in turn; `none` when
some requested letter has no instance left. -/
def consumeLetters : List ScrabbleLetter → List ScrabbleLetter →
    Option (List ScrabbleLetter)
  | [], bag => some bag
  | l :: rest, bag =>
    if bag.contains l then consumeLetters rest (bag.erase l) else none

/-- `Player::try_consume`: the bag is replaced only when every letter was
found; on failure the player is returned unchanged together with the error. -/
def Player.tryConsume (pl : Player) (toConsume : List ScrabbleLetter) :
    Player × Option ScrabbleRuntimeError :=
  match consumeLetters toConsume pl.letterBag with
  | some newBag => ({ pl with letterBag := newBag }, none)
  | none => (pl, some .missingLetters)

/-- A board cell: `(ScrabbleLetter, Owner)`. -/
abbrev Cell := ScrabbleLetter × Owner

/-- `GameBoard<N>` from `scrabble.rs`: `tiles[x][y]`, with the compile-time
dimension `N` stored as a field (`size`). -/
structure GameBoard where
  size : Nat
  tiles : List (List Cell)
deriving DecidableEq

/-- Read `tiles[x][y]`; the Rust code only indexes after a bounds check, so
the default value is never semantically relevant. -/
def GameBoard.getCell (b : GameBoard) (pos : Position) : Cell :=
  (b.tiles.getD pos.1.toNat []).getD pos.2.toNat (.empty, .none)

/-- Write `tiles[x][y] = v`; the Rust code only writes after a bounds check. -/
def GameBoard.setCell (b : GameBoard) (pos : Position) (v : Cell) : GameBoard :=
  { b with
    tiles := b.tiles.set pos.1.toNat
      ((b.tiles.getD pos.1.toNat []).set pos.2.toNat v) }

/-- `GameBoard::is_out_of_bounds`. -/
def GameBoard.isOutOfBounds (b : GameBoard) (pos : Position) : Bool :=
  pos.1 < 0 || pos.2 < 0 || b.size ≤ pos.1 || b.size ≤ pos.2

/-- `GameBoard::is_empty`. -/
def GameBoard.isEmpty (b : GameBoard) (pos : Position) : Bool :=
  if b.isOutOfBounds pos then false
  else (b.getCell pos).1 == .empty

/-- `GameBoard::try_place`. -/
def GameBoard.tryPlace (b : GameBoard) (placerId : Nat)
    (toPlace : ScrabbleLetter) (pos : Position) :
    Except ScrabbleRuntimeError GameBoard :=
  if !b.isEmpty pos then .error .blockedSpace
  else .ok (b.setCell pos (toPlace, .owning placerId))

/-- `GameBoard::try_get`. -/
def GameBoard.tryGet (b : GameBoard) (pos : Position) :
    Except ScrabbleRuntimeError Cell :=
  if b.isOutOfBounds pos then .error (.positionOutOfBounds pos)
  else .ok (b.getCell pos)

/-- `GameBoard::clear`. -/
def GameBoard.clear (b : GameBoard) (pos : Position) : GameBoard :=
  if b.isOutOfBounds pos then b
  else b.setCell pos (.empty, .none)

/-- `GameBoard::new`. -/
def GameBoard.new (n : Nat) : GameBoard :=
  { size := n, tiles := List.replicate n (List.replicate n (.empty, .none)) }

/-- `frequency` from `scrabble.rs`.  The source collects a `HashMap` into a
vector in unspecified order; we fix the canonical order of first occurrence
(`dedup` keeps one entry per distinct element).  Every property proved below
about the result is independent of the entry order. -/
def frequency {α : Type} [DecidableEq α] (elements : List α) : List (α × Nat) :=
  elements.dedup.map (fun e => (e, elements.count e))

/-- The `frequencies.sort_by(|a, b| b.1.cmp(&a.1))` step of
`ScrabbleGame::get_term`: sort descending by count (stable). -/
def sortFreqs (freqs : List (Owner × Nat)) : List (Owner × Nat) :=
  freqs.mergeSort (fun a b => b.2 ≤ a.2)

/-- The ownership-resolution tail of `ScrabbleGame::get_term` (tally the
owners, sort descending by tally, keep the strict winner, `Owner::None` when
the top two tallies are equal).  `none` models the failure of the source's
`assert!(frequencies.len() > 0)`. -/
def determineOwner (owners : List Owner) : Option Owner :=
  match sortFreqs (frequency owners) with
  | [] => none
  | [f] => some f.1
  | f1 :: f2 :: _ => some (if f1.2 == f2.2 then Owner.none else f1.1)

/-- `TermDirection` as its `isize` value (`Decreasing = -1`, `Increasing = 1`). -/
def termDirDec : Int := -1

/-- `TermDirection::Increasing` as its `isize` value. -/
def termDirInc : Int := 1

/-- The iterator body of `ScrabbleGame::collect_to_term_end`, with explicit
fuel.  The source's `std::iter::from_fn` iterator stops as soon as the current
position is out of bounds or empty; fuel `size + 1` provably never runs out
(see `collectGo_stops`), so this equals the unbounded iterator. -/
def collectGo (b : GameBoard) (position : Position) (direction : Direction)
    (iterDir : Int) : Nat → Int → List Position
  | 0, _ => []
  | fuel + 1, currIterOffset =>
    let currPos := movePosition position currIterOffset direction
    if b.isOutOfBounds currPos || b.isEmpty currPos then []
    else currPos :: collectGo b position direction iterDir fuel
      (currIterOffset + iterDir)

/-- `ScrabbleGame::collect_to_term_end`. -/
def collectToTermEnd (b : GameBoard) (position : Position)
    (direction : Direction) (iterDir : Int) : List Position :=
  collectGo b position direction iterDir (b.size + 1) 0

/-- The position sequence of `ScrabbleGame::get_term`: backward run reversed,
then the forward run with the duplicated anchor skipped. -/
def termPositions (b : GameBoard) (position : Position)
    (direction : Direction) : List Position :=
  (collectToTermEnd b position direction termDirDec).reverse ++
    (collectToTermEnd b position direction termDirInc).drop 1

/-- `ScrabbleGame::get_term`.  `none` models a panic: either the
`expect("BUG: term is out of bounds!")` on an out-of-bounds read or the
`assert!(frequencies.len() > 0)`. -/
def getTerm (b : GameBoard) (position : Position) (direction : Direction) :
    Option (Term × Owner) :=
  match (termPositions b position direction).mapM
      (fun pos => (b.tryGet pos).toOption) with
  | none => none
  | some cells =>
    match determineOwner (cells.map Prod.snd) with
    | none => none
    | some owner => some (⟨cells.map Prod.fst⟩, owner)

/-- `ScrabbleGame::get_placement_terms`: the main term through the start
position plus one orthogonal term per placed letter.  `none` propagates a
panic inside `get_term`. -/
def getPlacementTerms (b : GameBoard) (p : Placement) :
    Option (List (Term × Owner)) :=
  (getTerm b p.startPos p.direction ::
    (List.range p.letters.length).map
      (fun (offset : Nat) =>
        getTerm b (movePosition p.startPos (offset : Int) p.direction)
          p.direction.orthogonal)).mapM id

/-- `ScrabbleGame::revert_placement`: clear the cell of every letter of the
placement. -/
def revertPlacement (b : GameBoard) (p : Placement) : GameBoard :=
  (List.range p.letters.length).foldl
    (fun acc (offset : Nat) =>
      acc.clear (movePosition p.startPos (offset : Int) p.direction)) b

/-- The loop of `ScrabbleGame::try_place`: place the letters one by one; on a
blocked cell, revert the prefix already written and return the error together
with the reverted board. -/
def gameTryPlaceGo (placerId : Nat) (p : Placement) (b : GameBoard)
    (offset : Nat) : Except (ScrabbleRuntimeError × GameBoard) GameBoard :=
  if h : offset < p.letters.length then
    match b.tryPlace placerId (p.letters.get ⟨offset, h⟩)
        (movePosition p.startPos offset p.direction) with
    | .error e =>
      .error (e, revertPlacement b ⟨p.letters.take offset, p.startPos, p.direction⟩)
    | .ok b2 => gameTryPlaceGo placerId p b2 (offset + 1)
  else .ok b
termination_by p.letters.length - offset

/-- `ScrabbleGame::try_place`. -/
def gameTryPlace (placerId : Nat) (p : Placement) (b : GameBoard) :
    Except (ScrabbleRuntimeError × GameBoard) GameBoard :=
  gameTryPlaceGo placerId p b 0

/-- `ScrabbleGame` from `scrabble.rs`. -/
structure ScrabbleGame where
  players : List Player
  currentPlayer : Nat
  board : GameBoard
  isFirstPlacement : Bool
deriving DecidableEq

/-- `ScrabbleGame::new`. -/
def ScrabbleGame.new (n : Nat) (playerBags : List (List ScrabbleLetter)) :
    ScrabbleGame :=
  { players := playerBags.map (fun bag => { letterBag := bag, score := 0 }),
    currentPlayer := 0,
    board := GameBoard.new n,
    isFirstPlacement := true }

/-- The score-commit loop of `ScrabbleGame::place_on_board`: add each term's
value to its owner's score, skipping unowned terms.  `none` models the panic
of `self.players[player_id]` when an owner id is out of range. -/
def applyScores (players : List Player) :
    List (Owner × Int) → Option (List Player)
  | [] => some players
  | (Owner.none, _) :: rest => applyScores players rest
  | (Owner.owning pid, v) :: rest =>
    match players.get? pid with
    | none => none
    | some pl => applyScores (players.set pid { pl with score := pl.score + v }) rest

/-- The outcome of a placement command: normal return (`ok`/`err`, carrying
the post-call game state) or a process-terminating panic. -/
inductive PlaceOutcome where
  | ok (g : ScrabbleGame)
  | err (e : ScrabbleRuntimeError) (g : ScrabbleGame)
  | panic
deriving DecidableEq

/-- `ScrabbleGame::place_on_board`, the transactional placement protocol of
`scrabble.rs` lines 115-186, step for step:
1. consume the letters from the acting player's bag (`try_consume`);
2. tentatively write the letters (`try_place`); on failure the prefix is
   already reverted, the letters are appended back to the bag;
3. derive the placement's terms, filter out singletons, evaluate;
4. `assert!(!is_first_placement || terms.len() == 1)` (a failing assert is
   the `panic` outcome, and in the source it runs *before* the two
   error checks below);
5. invalid terms / no surviving term: revert the board, append the letters
   back to the bag, report `InvalidPlacement`;
6. commit the scores, advance the turn, clear the first-placement flag. -/
def placeOnBoard (g : ScrabbleGame) (p : Placement) : PlaceOutcome :=
  match g.players.get? g.currentPlayer with
  | none => .panic
  | some pl =>
    match consumeLetters p.letters pl.letterBag with
    | none => .err .missingLetters g
    | some newBag =>
      match gameTryPlace g.currentPlayer p g.board with
      | .error (e, bRev) =>
        .err e { g with
          board := bRev,
          players := g.players.set g.currentPlayer
            { pl with letterBag := newBag ++ p.letters } }
      | .ok b2 =>
        match getPlacementTerms b2 p with
        | none => .panic
        | some termsOwners =>
          let filtered := termsOwners.filter (fun to_ => !to_.1.isSingleton)
          let terms := filtered.map Prod.fst
          let owners := filtered.map Prod.snd
          let results := terms.map Term.evaluate
          let areTermsValid := results.all (fun res => res.toOption.isSome)
          if g.isFirstPlacement && terms.length != 1 then .panic
          else if !areTermsValid then
            .err (.invalidPlacement "The placement leads to invalid terms!")
              { g with
                board := revertPlacement b2 p,
                players := g.players.set g.currentPlayer
                  { pl with letterBag := newBag ++ p.letters } }
          else if terms.isEmpty then
            .err (.invalidPlacement "Terms of length 1 are not allowed!")
              { g with
                board := revertPlacement b2 p,
                players := g.players.set g.currentPlayer
                  { pl with letterBag := newBag ++ p.letters } }
          else
            -- validity already checked -> are_terms_valid
            let resultsUnwrapped := results.map (fun res => res.toOption.getD 0)
            match applyScores
                (g.players.set g.currentPlayer { pl with letterBag := newBag })
                (owners.zip resultsUnwrapped) with
            | none => .panic
            | some players2 =>
              .ok { players := players2,
                    currentPlayer := (g.currentPlayer + 1) % players2.length,
                    board := b2,
                    isFirstPlacement := false }

/-- `Command` from `command_parsing.rs`. -/
inductive Command where
  | quit
  | print
  | score (playerId : Nat)
  | bag (playerId : Nat)
  | place (p : Placement)
deriving DecidableEq

/-- `ScrabbleGame::execute_command`.  `Quit` hits the source's
`unreachable!`, hence `panic`; `Print`/`Score`/`Bag` only read state. -/
def executeCommand (g : ScrabbleGame) : Command → PlaceOutcome
  | .quit => .panic
  | .print => .ok g
  | .score playerId =>
    if playerId < g.players.length then .ok g
    else .err (.playerIDOutOfBounds playerId) g
  | .bag playerId =>
    if playerId < g.players.length then .ok g
    else .err (.playerIDOutOfBounds playerId) g
  | .place p => placeOnBoard g p

/-- The game state carried by a non-panicking outcome. -/
def PlaceOutcome.state : PlaceOutcome → Option ScrabbleGame
  | .ok g => some g
  | .err _ g => some g
  | .panic => none

/-- Position `pos` lies on the board: the negation of `is_out_of_bounds`. -/
def GameBoard.inBounds (b : GameBoard) (pos : Position) : Prop :=
  0 ≤ pos.1 ∧ 0 ≤ pos.2 ∧ pos.1 < (b.size : Int) ∧ pos.2 < (b.size : Int)

/-- The `tiles` matrix really is `size × size` (true of every board the
program builds, by construction in `GameBoard::new`). -/
def GameBoard.DimsWF (b : GameBoard) : Prop :=
  b.tiles.length = b.size ∧ ∀ row ∈ b.tiles, row.length = b.size

/-- A cell is well-formed: either a free cell `(Empty, None)` or an occupied
cell with a recorded owner. -/
def CellOK (c : Cell) : Prop :=
  c = (.empty, .none) ∨ (c.1 ≠ .empty ∧ ∃ pid, c.2 = Owner.owning pid)

/-- Every in-bounds cell of the board is well-formed. -/
def GameBoard.CellsWF (b : GameBoard) : Prop :=
  ∀ pos : Position, b.inBounds pos → CellOK (b.getCell pos)

/-- Full board well-formedness. -/
def GameBoard.WF (b : GameBoard) : Prop :=
  b.DimsWF ∧ b.CellsWF

/-- The continuation condition of the term walk: the position at which
`collect_to_term_end` keeps collecting (in bounds and non-empty). -/
def GameBoard.walkable (b : GameBoard) (pos : Position) : Bool :=
  !(b.isOutOfBounds pos || b.isEmpty pos)

/-- The board position of the `offset`-th letter of a placement. -/
def Placement.posAt (p : Placement) (offset : Int) : Position :=
  movePosition p.startPos offset p.direction

/-! ## Lemmas about the postfix evaluator -/

/-- `wrap32` is the identity on values representable in an `i32`. -/
theorem wrap32_eq_self {n : Int} (h1 : -(2 ^ 31) ≤ n) (h2 : n < 2 ^ 31) :
    wrap32 n = n := by
  unfold wrap32
  have h0 : (0 : Int) ≤ n + 2 ^ 31 := by omega
  have hlt : n + 2 ^ 31 < 2 ^ 32 := by omega
  rw [Int.emod_eq_of_lt h0 hlt]
  omega

/-- C4: the evaluator pushes digit values, pops two operands per operator
(earlier-pushed operand on the left), reports a counted "not enough operands"
error, checks the final stack, and satisfies the five concrete round-trips. -/
theorem C4_evaluator :
    (∀ (op : Int → Int → Int) (nm : String) (first second : Int)
        (rest : List Int),
      binaryOperator op nm (second :: first :: rest) =
        .ok (wrap32 (op first second) :: rest)) ∧
    (∀ (op : Int → Int → Int) (nm : String) (first second : Int)
        (rest : List Int),
      -(2 ^ 31) ≤ op first second → op first second < 2 ^ 31 →
      binaryOperator op nm (second :: first :: rest) =
        .ok (op first second :: rest)) ∧
    (∀ (op : Int → Int → Int) (nm : String) (stack : List Int),
      stack.length < 2 →
      binaryOperator op nm stack =
        .error ("The Operator " ++ nm ++
          " expects 2 arguments, but received only " ++
          toString stack.length ++ "!")) ∧
    (∀ (d : ScrabbleLetter) (rest : List ScrabbleLetter) (stack : List Int),
      d.isDigit = true →
      evalGo (d :: rest) stack = evalGo rest (d.reprVal :: stack) ∧
        0 ≤ d.reprVal ∧ d.reprVal ≤ 9) ∧
    (∀ stack : List Int, 1 < stack.length →
      finalizeStack stack = .error "Unused arguments are left on the stack!") ∧
    finalizeStack [] = .error "Empty operand stack at the end of evaluation!" ∧
    (∀ v : Int, finalizeStack [v] = .ok v) ∧
    Term.evaluate ⟨[.num1, .num2, .plus]⟩ = .ok 3 ∧
    Term.evaluate ⟨[.num3, .num4, .dot]⟩ = .ok 12 ∧
    Term.evaluate ⟨[.num5]⟩ = .ok 5 ∧
    Term.evaluate ⟨[.num1, .num2]⟩ =
      .error "Unused arguments are left on the stack!" ∧
    Term.evaluate ⟨[.plus]⟩ =
      .error "The Operator + expects 2 arguments, but received only 0!" := by
  refine ⟨fun op nm f s rest => rfl, ?_, ?_, ?_, ?_, rfl, fun v => rfl,
    by rfl, by rfl, by rfl, by rfl, by rfl⟩
  · intro op nm f s rest h1 h2
    simp [binaryOperator, wrap32_eq_self h1 h2]
  · intro op nm stack h
    match stack with
    | [] => rfl
    | [x] => rfl
    | x :: y :: rest => simp at h; omega
  · intro d rest stack h
    cases d <;> simp_all [ScrabbleLetter.isDigit, evalGo, ScrabbleLetter.reprVal]
  · intro stack h
    unfold finalizeStack
    rw [if_pos h]

/-- Witness for C4 at concrete inputs. -/
theorem C4_evaluator_witness :
    binaryOperator (fun f s => f - s) "-" [2, 7] = .ok [5] ∧
    binaryOperator (fun f s => f + s) "+" [4] =
      .error "The Operator + expects 2 arguments, but received only 1!" ∧
    evalGo [.num7, .num3] [] = evalGo [.num3] [7] ∧
    finalizeStack [1, 2] = .error "Unused arguments are left on the stack!" := by
  refine ⟨?_, ?_, ?_, ?_⟩
  · have h := C4_evaluator.2.1 (fun f s => f - s) "-" 7 2 [] (by decide) (by decide)
    simpa using h
  · have h := C4_evaluator.2.2.1 (fun f s => f + s) "+" [4] (by decide)
    simpa using h
  · exact (C4_evaluator.2.2.2.1 .num7 [.num3] [] rfl).1
  · exact C4_evaluator.2.2.2.2.1 [1, 2] (by decide)

/-! ## Lemmas about bag consumption -/

/-- Multiset containment between coerced lists, in terms of `List.count`. -/
theorem coe_le_iff_count (l1 l2 : List ScrabbleLetter) :
    (l1 : Multiset ScrabbleLetter) ≤ (l2 : Multiset ScrabbleLetter) ↔
      ∀ a, l1.count a ≤ l2.count a := by
  simp [Multiset.le_iff_count]

/-- If the requested letters are contained in the bag (as a multiset), the
consume loop succeeds and the result is the bag minus the letters. -/
theorem consumeLetters_of_le :
    ∀ (letters bag : List ScrabbleLetter),
      (letters : Multiset ScrabbleLetter) ≤ (bag : Multiset ScrabbleLetter) →
      ∃ bag2, consumeLetters letters bag = some bag2 ∧
        (bag2 : Multiset ScrabbleLetter) =
          (bag : Multiset ScrabbleLetter) - (letters : Multiset ScrabbleLetter)
  | [], bag, _ => ⟨bag, rfl, by simp⟩
  | l :: rest, bag, h => by
    have hcount := (coe_le_iff_count _ _).mp h
    have hmem : l ∈ bag := by
      have := hcount l
      rw [List.count_cons_self] at this
      exact List.count_pos_iff.mp (by omega)
    have hrest : (rest : Multiset ScrabbleLetter) ≤
        ((bag.erase l : List ScrabbleLetter) : Multiset ScrabbleLetter) := by
      refine (coe_le_iff_count _ _).mpr fun a => ?_
      have hc := hcount a
      rcases eq_or_ne a l with rfl | hne
      · rw [List.count_cons_self] at hc
        rw [List.count_erase_self]
        omega
      · rw [List.count_cons_of_ne hne] at hc
        rw [List.count_erase_of_ne hne]
        omega
    obtain ⟨bag2, heq, hms⟩ := consumeLetters_of_le rest (bag.erase l) hrest
    refine ⟨bag2, ?_, ?_⟩
    · have hcont : bag.contains l = true := by simpa using hmem
      simp [consumeLetters, hcont, heq, hmem]
    · rw [hms, ← Multiset.coe_erase]
      have hcons : ((l :: rest : List ScrabbleLetter) : Multiset ScrabbleLetter) =
          l ::ₘ (rest : Multiset ScrabbleLetter) := rfl
      rw [hcons, Multiset.sub_cons]

/-- If the consume loop succeeds, the requested letters were contained in
the bag. -/
theorem le_of_consumeLetters_some :
    ∀ (letters bag bag2 : List ScrabbleLetter),
      consumeLetters letters bag = some bag2 →
      (letters : Multiset ScrabbleLetter) ≤ (bag : Multiset ScrabbleLetter)
  | [], _, _, _ => by simp
  | l :: rest, bag, bag2, h => by
    rw [consumeLetters] at h
    by_cases hcont : bag.contains l
    · rw [if_pos hcont] at h
      have hmem : l ∈ bag := by simpa using hcont
      have hrest := le_of_consumeLetters_some rest (bag.erase l) bag2 h
      have hrest' := (coe_le_iff_count _ _).mp hrest
      refine (coe_le_iff_count _ _).mpr fun a => ?_
      have hcnt := hrest' a
      have hpos : 0 < bag.count l := List.count_pos_iff.mpr hmem
      rcases eq_or_ne a l with rfl | hne
      · rw [List.count_erase_self] at hcnt
        rw [List.count_cons_self]
        omega
      · rw [List.count_erase_of_ne hne] at hcnt
        rw [List.count_cons_of_ne hne]
        omega
    · rw [if_neg hcont] at h
      exact absurd h (by simp)

/-- C6: `Player::try_consume` is all-or-nothing: with multiset containment it
succeeds and removes exactly one instance per requested letter; otherwise it
fails with `MissingLetters` and the player (hence the bag) is unchanged. -/
theorem C6_try_consume :
    (∀ (pl : Player) (letters : List ScrabbleLetter),
      (letters : Multiset ScrabbleLetter) ≤
        (pl.letterBag : Multiset ScrabbleLetter) →
      ∃ bag2, pl.tryConsume letters = ({ pl with letterBag := bag2 }, none) ∧
        (bag2 : Multiset ScrabbleLetter) =
          (pl.letterBag : Multiset ScrabbleLetter) -
            (letters : Multiset ScrabbleLetter)) ∧
    (∀ (pl : Player) (letters : List ScrabbleLetter),
      ¬((letters : Multiset ScrabbleLetter) ≤
        (pl.letterBag : Multiset ScrabbleLetter)) →
      pl.tryConsume letters = (pl, some .missingLetters)) := by
  constructor
  · intro pl letters h
    obtain ⟨bag2, heq, hms⟩ := consumeLetters_of_le letters pl.letterBag h
    exact ⟨bag2, by simp [Player.tryConsume, heq], hms⟩
  · intro pl letters h
    cases heq : consumeLetters letters pl.letterBag with
    | none => simp [Player.tryConsume, heq]
    | some bag2 =>
      exact absurd (le_of_consumeLetters_some letters pl.letterBag bag2 heq) h

/-- Witness for C6 at concrete inputs. -/
theorem C6_try_consume_witness :
    (∃ bag2,
      (⟨[.num1, .num2], 0⟩ : Player).tryConsume [.num2] =
        ({ letterBag := bag2, score := 0 }, none) ∧
      (bag2 : Multiset ScrabbleLetter) =
        (([.num1, .num2] : List ScrabbleLetter) : Multiset ScrabbleLetter) -
          (([.num2] : List ScrabbleLetter) : Multiset ScrabbleLetter)) ∧
    (⟨[.num1, .num2], 0⟩ : Player).tryConsume [.num9] =
      (⟨[.num1, .num2], 0⟩, some .missingLetters) :=
  ⟨C6_try_consume.1 ⟨[.num1, .num2], 0⟩ [.num2] (by decide),
   C6_try_consume.2 ⟨[.num1, .num2], 0⟩ [.num9] (by decide)⟩

/-! ## Board lemmas -/

/-- `is_out_of_bounds` decides the `inBounds` predicate. -/
theorem isOutOfBounds_eq_false_iff (b : GameBoard) (pos : Position) :
    b.isOutOfBounds pos = false ↔ b.inBounds pos := by
  simp [GameBoard.isOutOfBounds, GameBoard.inBounds]
  omega

/-- `setCell` keeps the stored dimension. -/
theorem size_setCell (b : GameBoard) (pos : Position) (v : Cell) :
    (b.setCell pos v).size = b.size := rfl

/-- `setCell` keeps the matrix shape. -/
theorem dimsWF_setCell {b : GameBoard} (h : b.DimsWF) (pos : Position)
    (v : Cell) : (b.setCell pos v).DimsWF := by
  obtain ⟨hlen, hrow⟩ := h
  by_cases hx : pos.1.toNat < b.tiles.length
  · refine ⟨by simpa [GameBoard.setCell], ?_⟩
    intro row hr
    rcases List.mem_or_eq_of_mem_set hr with hmem | rfl
    · exact hrow row hmem
    · have hget : b.tiles.getD pos.1.toNat [] ∈ b.tiles := by
        rw [List.getD_eq_getElem?_getD, List.getElem?_eq_getElem hx]
        exact List.getElem_mem hx
      simpa using hrow _ hget
  · rw [GameBoard.setCell]
    simp only [List.set_eq_of_length_le (Nat.le_of_not_lt hx)]
    exact ⟨hlen, hrow⟩

/-- Nested read-after-write, same position, in range. -/
theorem set2_get2_self {α : Type} (m : List (List α)) (qx qy : Nat) (v d : α)
    (hx : qx < m.length) (hy : qy < (m[qx]?.getD []).length) :
    (((m.set qx ((m[qx]?.getD []).set qy v))[qx]?.getD [])[qy]?).getD d = v := by
  rw [List.getElem?_set_self hx, Option.getD_some, List.getElem?_set_self hy,
    Option.getD_some]

/-- Nested read-after-write, different position. -/
theorem set2_get2_ne {α : Type} (m : List (List α)) (qx qy rx ry : Nat)
    (v d : α) (h : qx ≠ rx ∨ qy ≠ ry) :
    (((m.set qx ((m[qx]?.getD []).set qy v))[rx]?.getD [])[ry]?).getD d =
      ((m[rx]?.getD [])[ry]?).getD d := by
  rcases h with hx | hy
  · rw [List.getElem?_set_ne hx]
  · by_cases hx : qx = rx
    · subst hx
      rw [List.getElem?_set, if_pos rfl]
      by_cases hlt : qx < m.length
      · rw [if_pos hlt, Option.getD_some, List.getElem?_set_ne hy]
      · rw [if_neg hlt, List.getElem?_eq_none (Nat.le_of_not_lt hlt)]
    · rw [List.getElem?_set_ne hx]

/-- After a nested write the value read anywhere is the written value or the
old one. -/
theorem set2_get2_or {α : Type} (m : List (List α)) (qx qy rx ry : Nat)
    (v d : α) :
    (((m.set qx ((m[qx]?.getD []).set qy v))[rx]?.getD [])[ry]?).getD d = v ∨
      (((m.set qx ((m[qx]?.getD []).set qy v))[rx]?.getD [])[ry]?).getD d =
        ((m[rx]?.getD [])[ry]?).getD d := by
  by_cases hx : qx = rx
  · subst hx
    rw [List.getElem?_set, if_pos rfl]
    by_cases hlt : qx < m.length
    · rw [if_pos hlt, Option.getD_some]
      by_cases hy : qy = ry
      · subst hy
        rw [List.getElem?_set, if_pos rfl]
        by_cases hy2 : qy < (m[qx]?.getD []).length
        · rw [if_pos hy2]
          left
          rfl
        · rw [if_neg hy2]
          right
          rw [List.getElem?_eq_none (Nat.le_of_not_lt hy2)]
      · rw [List.getElem?_set_ne hy]
        right
        rfl
    · rw [if_neg hlt, List.getElem?_eq_none (Nat.le_of_not_lt hlt)]
      right
      rfl
  · rw [List.getElem?_set_ne hx]
    right
    rfl

/-- Reading back the cell just written (position in bounds). -/
theorem getCell_setCell_self {b : GameBoard} (hd : b.DimsWF) {pos : Position}
    (hb : b.inBounds pos) (v : Cell) : (b.setCell pos v).getCell pos = v := by
  obtain ⟨hlen, hrow⟩ := hd
  obtain ⟨hx0, hy0, hxs, hys⟩ := hb
  have hx : pos.1.toNat < b.tiles.length := by rw [hlen]; omega
  have hrowmem : b.tiles[pos.1.toNat]?.getD [] ∈ b.tiles := by
    rw [List.getElem?_eq_getElem hx]
    exact List.getElem_mem hx
  have hy : pos.2.toNat < (b.tiles[pos.1.toNat]?.getD []).length := by
    rw [hrow _ hrowmem]; omega
  rw [GameBoard.getCell, GameBoard.setCell]
  simp only [List.getD_eq_getElem?_getD]
  exact set2_get2_self b.tiles pos.1.toNat pos.2.toNat v _ hx hy

/-- Writing one cell does not change any other cell. -/
theorem getCell_setCell_ne {b : GameBoard} {q r : Position} (hq1 : 0 ≤ q.1)
    (hq2 : 0 ≤ q.2) (hr1 : 0 ≤ r.1) (hr2 : 0 ≤ r.2) (hne : q ≠ r) (v : Cell) :
    (b.setCell q v).getCell r = b.getCell r := by
  have hcoord : q.1.toNat ≠ r.1.toNat ∨ q.2.toNat ≠ r.2.toNat := by
    by_contra hc
    push_neg at hc
    exact hne (Prod.ext (by omega) (by omega))
  rw [GameBoard.getCell, GameBoard.setCell, GameBoard.getCell]
  simp only [List.getD_eq_getElem?_getD]
  exact set2_get2_ne b.tiles q.1.toNat q.2.toNat r.1.toNat r.2.toNat v _ hcoord

/-- After a write, every cell holds either the written value or its old
value (no side conditions; used for invariant preservation). -/
theorem getCell_setCell_or (b : GameBoard) (q : Position) (v : Cell)
    (r : Position) :
    (b.setCell q v).getCell r = v ∨ (b.setCell q v).getCell r = b.getCell r := by
  rw [GameBoard.getCell, GameBoard.setCell, GameBoard.getCell]
  simp only [List.getD_eq_getElem?_getD]
  exact set2_get2_or b.tiles q.1.toNat q.2.toNat r.1.toNat r.2.toNat v _

/-- `is_empty` is false out of bounds ("not placeable", not "empty"). -/
theorem isEmpty_of_oob {b : GameBoard} {pos : Position}
    (h : b.isOutOfBounds pos = true) : b.isEmpty pos = false := by
  simp [GameBoard.isEmpty, h]

/-- `is_empty` characterization. -/
theorem boardIsEmpty_iff (b : GameBoard) (pos : Position) :
    b.isEmpty pos = true ↔ b.inBounds pos ∧ (b.getCell pos).1 = .empty := by
  rw [GameBoard.isEmpty]
  cases hoob : b.isOutOfBounds pos with
  | false =>
    have hin := (isOutOfBounds_eq_false_iff b pos).mp hoob
    simp [hin]
  | true =>
    have hnin : ¬b.inBounds pos := fun hin => by
      rw [(isOutOfBounds_eq_false_iff b pos).mpr hin] at hoob
      cases hoob
    simp [hnin]

/-- `walkable` characterization: in bounds and occupied. -/
theorem walkable_iff (b : GameBoard) (pos : Position) :
    b.walkable pos = true ↔ b.inBounds pos ∧ (b.getCell pos).1 ≠ .empty := by
  rw [GameBoard.walkable]
  cases hoob : b.isOutOfBounds pos with
  | false =>
    have hin := (isOutOfBounds_eq_false_iff b pos).mp hoob
    simp [GameBoard.isEmpty, hoob, hin]
  | true =>
    have hnin : ¬b.inBounds pos := fun hin => by
      rw [(isOutOfBounds_eq_false_iff b pos).mpr hin] at hoob
      cases hoob
    simp [GameBoard.isEmpty, hoob, hnin]

/-- The stop condition of the term walk is the negation of `walkable`. -/
theorem stop_iff_not_walkable (b : GameBoard) (pos : Position) :
    (b.isOutOfBounds pos || b.isEmpty pos) = !b.walkable pos := by
  rw [GameBoard.walkable, Bool.not_not]

/-- `try_place` succeeds exactly on an empty cell, writing the letter with
the placer as owner. -/
theorem tryPlace_ok_iff {b b' : GameBoard} {pid : Nat} {l : ScrabbleLetter}
    {pos : Position} :
    b.tryPlace pid l pos = .ok b' ↔
      b.isEmpty pos = true ∧ b' = b.setCell pos (l, .owning pid) := by
  rw [GameBoard.tryPlace]
  cases he : b.isEmpty pos with
  | false => simp
  | true =>
    simp only [Bool.not_true, Bool.false_eq_true, if_false, true_and]
    exact ⟨fun h => (Except.ok.inj h).symm, fun h => by rw [h]⟩

/-- `try_place` fails with `BlockedSpace` exactly on a non-empty (or
out-of-bounds) target. -/
theorem tryPlace_error_iff {b : GameBoard} {pid : Nat} {l : ScrabbleLetter}
    {pos : Position} {e : ScrabbleRuntimeError} :
    b.tryPlace pid l pos = .error e ↔
      b.isEmpty pos = false ∧ e = .blockedSpace := by
  rw [GameBoard.tryPlace]
  cases he : b.isEmpty pos with
  | false =>
    simp only [Bool.not_false, if_true, true_and]
    exact ⟨fun h => (Except.error.inj h).symm, fun h => by rw [h]⟩
  | true => simp

/-- `clear` keeps the stored dimension. -/
theorem size_clear (b : GameBoard) (pos : Position) :
    (b.clear pos).size = b.size := by
  rw [GameBoard.clear]
  split <;> rfl

/-- `clear` keeps the matrix shape. -/
theorem dimsWF_clear {b : GameBoard} (h : b.DimsWF) (pos : Position) :
    (b.clear pos).DimsWF := by
  rw [GameBoard.clear]
  split
  · exact h
  · exact dimsWF_setCell h pos _

/-- `clear` resets an in-bounds cell to `(Empty, None)`. -/
theorem getCell_clear_self {b : GameBoard} (hd : b.DimsWF) {pos : Position}
    (hb : b.inBounds pos) : (b.clear pos).getCell pos = (.empty, .none) := by
  rw [GameBoard.clear, if_neg (by simp [(isOutOfBounds_eq_false_iff b pos).mpr hb])]
  exact getCell_setCell_self hd hb _

/-- `clear` leaves every other cell unchanged (the read position having
non-negative coordinates). -/
theorem getCell_clear_ne {b : GameBoard} {q r : Position} (hr1 : 0 ≤ r.1)
    (hr2 : 0 ≤ r.2) (hne : q ≠ r) : (b.clear q).getCell r = b.getCell r := by
  rw [GameBoard.clear]
  split
  · rfl
  · rename_i hoob
    have hin := (isOutOfBounds_eq_false_iff b q).mp (by simpa using hoob)
    exact getCell_setCell_ne hin.1 hin.2.1 hr1 hr2 hne _

/-- Fresh boards have the declared dimensions. -/
theorem dimsWF_new (n : Nat) : (GameBoard.new n).DimsWF := by
  refine ⟨by simp [GameBoard.new], fun row hr => ?_⟩
  rw [GameBoard.new] at hr
  simp only [List.eq_of_mem_replicate hr]
  simp [GameBoard.new]

/-- Every cell of a fresh board reads `(Empty, None)` (in or out of the
matrix, thanks to the default). -/
theorem getCell_new (n : Nat) (pos : Position) :
    (GameBoard.new n).getCell pos = (.empty, .none) := by
  rw [GameBoard.getCell, GameBoard.new]
  simp only [List.getD_eq_getElem?_getD, List.getElem?_replicate]
  by_cases hx : pos.1.toNat < n
  · rw [if_pos hx]
    simp only [Option.getD_some, List.getElem?_replicate]
    by_cases hy : pos.2.toNat < n
    · rw [if_pos hy]
      rfl
    · rw [if_neg hy]
      rfl
  · rw [if_neg hx]
    rfl

/-- Fresh boards satisfy the cell invariant. -/
theorem cellsWF_new (n : Nat) : (GameBoard.new n).CellsWF := by
  intro pos _
  rw [getCell_new]
  left
  rfl

/-- Fresh boards are well-formed. -/
theorem wf_new (n : Nat) : (GameBoard.new n).WF :=
  ⟨dimsWF_new n, cellsWF_new n⟩

/-- `inBounds` only depends on the stored size, which `setCell` keeps. -/
theorem inBounds_setCell (b : GameBoard) (q : Position) (v : Cell)
    (pos : Position) : (b.setCell q v).inBounds pos ↔ b.inBounds pos :=
  Iff.rfl

/-- Writing a well-formed value preserves the cell invariant. -/
theorem cellsWF_setCell {b : GameBoard} (h : b.CellsWF) {v : Cell}
    (hv : CellOK v) (q : Position) : (b.setCell q v).CellsWF := by
  intro pos hin
  rcases getCell_setCell_or b q v pos with h1 | h1 <;> rw [h1]
  · exact hv
  · exact h pos hin

/-- `clear` preserves the cell invariant. -/
theorem cellsWF_clear {b : GameBoard} (h : b.CellsWF) (pos : Position) :
    (b.clear pos).CellsWF := by
  rw [GameBoard.clear]
  split
  · exact h
  · exact cellsWF_setCell h (Or.inl rfl) pos

/-- Boards of equal size, shape and cell contents have equal tile
matrices (cell-for-cell equality implies structural equality). -/
theorem tiles_ext {b b' : GameBoard} (hd : b.DimsWF) (hd' : b'.DimsWF)
    (hs : b.size = b'.size)
    (h : ∀ pos : Position, b.inBounds pos → b.getCell pos = b'.getCell pos) :
    b.tiles = b'.tiles := by
  have hlen : b.tiles.length = b'.tiles.length := by rw [hd.1, hd'.1, hs]
  apply List.ext_getElem hlen
  intro i h1 h2
  have hrl : b.tiles[i].length = b'.tiles[i].length := by
    rw [hd.2 _ (List.getElem_mem h1), hd'.2 _ (List.getElem_mem h2), hs]
  apply List.ext_getElem hrl
  intro j hj1 hj2
  have hisz : i < b.size := by rw [← hd.1]; exact h1
  have hjsz : j < b.size := by
    rw [← hd.2 _ (List.getElem_mem h1)]; exact hj1
  have hin : b.inBounds ((i : Int), (j : Int)) := by
    refine ⟨by positivity, by positivity, ?_, ?_⟩ <;> simpa
  have hc := h _ hin
  rw [GameBoard.getCell, GameBoard.getCell] at hc
  simp only [List.getD_eq_getElem?_getD, Int.toNat_natCast] at hc
  rw [List.getElem?_eq_getElem h1, List.getElem?_eq_getElem h2] at hc
  simp only [Option.getD_some] at hc
  rw [List.getElem?_eq_getElem hj1, List.getElem?_eq_getElem hj2] at hc
  simpa using hc

/-! ## Placement write / revert machinery -/

/-- `inBounds` transports along equal sizes. -/
theorem inBounds_of_size_eq {b b' : GameBoard} (h : b.size = b'.size)
    (pos : Position) : b.inBounds pos ↔ b'.inBounds pos := by
  rw [GameBoard.inBounds, GameBoard.inBounds, h]

/-- Offsets determine placement positions injectively. -/
theorem posAt_inj {p : Placement} {i j : Int} (h : p.posAt i = p.posAt j) :
    i = j := by
  rcases p with ⟨ls, ⟨x, y⟩, dir⟩
  cases dir <;>
    simp [Placement.posAt, movePosition, Direction.asVec, Prod.ext_iff] at h <;>
    omega

/-- A fold of `clear`s keeps the stored dimension. -/
theorem foldl_clear_size (f : Nat → Position) :
    ∀ (l : List Nat) (b : GameBoard),
      (l.foldl (fun acc o => acc.clear (f o)) b).size = b.size
  | [], _ => rfl
  | o :: rest, b => by
    rw [List.foldl_cons, foldl_clear_size f rest, size_clear]

/-- A fold of `clear`s keeps the matrix shape. -/
theorem foldl_clear_dims (f : Nat → Position) :
    ∀ (l : List Nat) {b : GameBoard}, b.DimsWF →
      (l.foldl (fun acc o => acc.clear (f o)) b).DimsWF
  | [], _, h => h
  | o :: rest, b, h => by
    rw [List.foldl_cons]
    exact foldl_clear_dims f rest (dimsWF_clear h _)

/-- A fold of `clear`s that never targets `r` leaves `r`'s cell alone. -/
theorem foldl_clear_getCell_notHit (f : Nat → Position) {r : Position}
    (hr1 : 0 ≤ r.1) (hr2 : 0 ≤ r.2) :
    ∀ (l : List Nat) (b : GameBoard), (∀ j ∈ l, f j ≠ r) →
      (l.foldl (fun acc o => acc.clear (f o)) b).getCell r = b.getCell r
  | [], _, _ => rfl
  | o :: rest, b, h => by
    rw [List.foldl_cons,
      foldl_clear_getCell_notHit f hr1 hr2 rest _
        (fun j hj => h j (List.mem_cons_of_mem o hj)),
      getCell_clear_ne hr1 hr2 (h o (List.mem_cons_self o rest))]

/-- A fold of `clear`s keeps an already-empty in-bounds cell empty. -/
theorem foldl_clear_keepEmpty (f : Nat → Position) {r : Position} :
    ∀ (l : List Nat) (b : GameBoard), b.DimsWF → b.inBounds r →
      b.getCell r = (.empty, .none) →
      (l.foldl (fun acc o => acc.clear (f o)) b).getCell r = (.empty, .none)
  | [], _, _, _, h => h
  | o :: rest, b, hd, hin, h => by
    rw [List.foldl_cons]
    by_cases hfo : f o = r
    · exact foldl_clear_keepEmpty f rest _ (dimsWF_clear hd _)
        ((inBounds_of_size_eq (size_clear b (f o)) r).mpr hin)
        (by rw [← hfo] at hin ⊢; exact getCell_clear_self hd hin)
    · exact foldl_clear_keepEmpty f rest _ (dimsWF_clear hd _)
        ((inBounds_of_size_eq (size_clear b (f o)) r).mpr hin)
        (by rw [getCell_clear_ne hin.1 hin.2.1 hfo]; exact h)

/-- A fold of `clear`s that targets `r` at least once empties `r`'s cell. -/
theorem foldl_clear_hit (f : Nat → Position) {r : Position} :
    ∀ (l : List Nat) (b : GameBoard), b.DimsWF → b.inBounds r →
      (∃ j ∈ l, f j = r) →
      (l.foldl (fun acc o => acc.clear (f o)) b).getCell r = (.empty, .none)
  | [], _, _, _, h => absurd h (by simp)
  | o :: rest, b, hd, hin, h => by
    rw [List.foldl_cons]
    by_cases hfo : f o = r
    · exact foldl_clear_keepEmpty f rest _ (dimsWF_clear hd _)
        ((inBounds_of_size_eq (size_clear b (f o)) r).mpr hin)
        (by rw [← hfo] at hin ⊢; exact getCell_clear_self hd hin)
    · rcases h with ⟨j, hj, hfj⟩
      rcases List.mem_cons.mp hj with rfl | hjrest
      · exact absurd hfj hfo
      · exact foldl_clear_hit f rest _ (dimsWF_clear hd _)
          ((inBounds_of_size_eq (size_clear b (f o)) r).mpr hin) ⟨j, hjrest, hfj⟩

/-- If `b2` is `b₀` with exactly the placement cells written — each of them
originally empty and in bounds — then `revert_placement` restores `b₀`
cell-for-cell. -/
theorem revertPlacement_restores {p : Placement} {b₀ b2 : GameBoard}
    (hwf : b₀.WF) (hsz : b2.size = b₀.size) (hd2 : b2.DimsWF)
    (hcells : ∀ j : Nat, j < p.letters.length →
      b₀.inBounds (p.posAt j) ∧ b₀.getCell (p.posAt j) = (.empty, .none))
    (hagree : ∀ r : Position, b₀.inBounds r →
      (∀ j : Nat, j < p.letters.length → p.posAt j ≠ r) →
      b2.getCell r = b₀.getCell r) :
    (revertPlacement b2 p).tiles = b₀.tiles ∧
      (revertPlacement b2 p).size = b₀.size := by
  have hrs : (revertPlacement b2 p).size = b₀.size :=
    (foldl_clear_size (fun o : Nat => p.posAt o) _ b2).trans hsz
  have hrd : (revertPlacement b2 p).DimsWF :=
    foldl_clear_dims (fun o : Nat => p.posAt o) _ hd2
  refine ⟨tiles_ext hrd hwf.1 hrs fun pos hin => ?_, hrs⟩
  have hin0 : b₀.inBounds pos := (inBounds_of_size_eq hrs pos).mp hin
  have hin2 : b2.inBounds pos := (inBounds_of_size_eq hsz pos).mpr hin0
  by_cases hhit : ∃ j : Nat, j < p.letters.length ∧ p.posAt j = pos
  · rcases hhit with ⟨j, hj, hfj⟩
    have hl := foldl_clear_hit (fun o : Nat => p.posAt o)
      (List.range p.letters.length) b2 hd2 hin2
      ⟨j, List.mem_range.mpr hj, hfj⟩
    have hb0 : b₀.getCell pos = (.empty, .none) := by
      rw [← hfj]
      exact (hcells j hj).2
    exact hl.trans hb0.symm
  · push_neg at hhit
    have hl := foldl_clear_getCell_notHit (fun o : Nat => p.posAt o)
      hin0.1 hin0.2.1 (List.range p.letters.length) b2
      (fun j hj => hhit j (List.mem_range.mp hj))
    exact hl.trans (hagree pos hin0 fun j hj => hhit j hj)

/-- Behaviour of the `try_place` loop relative to the board `b₀` at entry to
the whole placement.  On error the returned board equals `b₀` cell-for-cell
and the error is `BlockedSpace`; on success the final board holds the
placement letters (owned by the placer) on previously empty in-bounds cells
and agrees with `b₀` everywhere else. -/
theorem gameTryPlaceGo_spec (pid : Nat) (p : Placement) (b₀ : GameBoard)
    (hwf : b₀.WF) :
    ∀ (offset : Nat) (b : GameBoard),
      b.size = b₀.size → b.DimsWF →
      (∀ j : Nat, j < offset → j < p.letters.length →
        b₀.inBounds (p.posAt j) ∧ b₀.getCell (p.posAt j) = (.empty, .none) ∧
        b.getCell (p.posAt j) = (p.letters.getD j .empty, .owning pid)) →
      (∀ r : Position, b₀.inBounds r →
        (∀ j : Nat, j < offset → j < p.letters.length → p.posAt j ≠ r) →
        b.getCell r = b₀.getCell r) →
      (∀ e bRev, gameTryPlaceGo pid p b offset = .error (e, bRev) →
        e = .blockedSpace ∧ bRev.tiles = b₀.tiles ∧ bRev.size = b₀.size) ∧
      (∀ b2, gameTryPlaceGo pid p b offset = .ok b2 →
        b2.size = b₀.size ∧ b2.DimsWF ∧
        (∀ j : Nat, j < p.letters.length →
          b₀.inBounds (p.posAt j) ∧ b₀.getCell (p.posAt j) = (.empty, .none) ∧
          b2.getCell (p.posAt j) = (p.letters.getD j .empty, .owning pid)) ∧
        (∀ r : Position, b₀.inBounds r →
          (∀ j : Nat, j < p.letters.length → p.posAt j ≠ r) →
          b2.getCell r = b₀.getCell r))
  | offset, b => by
    intro hsz hd hcells hagree
    rw [gameTryPlaceGo]
    by_cases h : offset < p.letters.length
    · rw [dif_pos h]
      cases htp : b.tryPlace pid (p.letters.get ⟨offset, h⟩)
          (movePosition p.startPos offset p.direction) with
      | error e =>
        obtain ⟨hne, rfl⟩ := tryPlace_error_iff.mp htp
        refine ⟨fun e' bRev heq => ?_, fun b2 heq => by cases heq⟩
        have he' : e' = ScrabbleRuntimeError.blockedSpace ∧
            bRev = revertPlacement b
              ⟨p.letters.take offset, p.startPos, p.direction⟩ := by
          cases heq
          exact ⟨rfl, rfl⟩
        obtain ⟨rfl, rfl⟩ := he'
        set ptake : Placement := ⟨p.letters.take offset, p.startPos, p.direction⟩
          with hptake
        have htlen : ptake.letters.length = offset := by
          simp [hptake, Nat.le_of_lt h]
        have hpos : ∀ j : Int, ptake.posAt j = p.posAt j := fun j => rfl
        have hrest := @revertPlacement_restores ptake b₀ b hwf hsz hd
          (fun j hj => by
            rw [htlen] at hj
            rw [hpos]
            exact ⟨(hcells j hj (lt_trans hj h)).1, (hcells j hj (lt_trans hj h)).2.1⟩)
          (fun r hr havoid => hagree r hr (fun j hj hjlen => by
            rw [← hpos]
            exact havoid j (by rw [htlen]; exact hj)))
        exact ⟨rfl, hrest.1, hrest.2⟩
      | ok b' =>
        obtain ⟨hemp, rfl⟩ := tryPlace_ok_iff.mp htp
        have hinb := (boardIsEmpty_iff b _).mp hemp
        have hin0 : b₀.inBounds (p.posAt offset) :=
          (inBounds_of_size_eq hsz _).mp hinb.1
        have hcell0 : b₀.getCell (p.posAt offset) = (.empty, .none) := by
          have hbg : b.getCell (p.posAt offset) = b₀.getCell (p.posAt offset) := by
            refine hagree _ hin0 fun j hj hjlen hne => ?_
            have := posAt_inj hne
            omega
          rcases hwf.2 _ hin0 with hok | hok
          · exact hok
          · rw [← hbg] at hok
            exact absurd hinb.2 hok.1
        have hval : (p.letters.get ⟨offset, h⟩) = p.letters.getD offset .empty := by
          rw [List.getD_eq_getElem?_getD, List.getElem?_eq_getElem h]
          rfl
        have hrec := gameTryPlaceGo_spec pid p b₀ hwf (offset + 1)
          (b.setCell (p.posAt offset) (p.letters.get ⟨offset, h⟩, .owning pid))
          ((size_setCell b _ _).trans hsz)
          (dimsWF_setCell hd _ _)
          (fun j hj hjlen => by
            rcases Nat.lt_succ_iff_lt_or_eq.mp hj with hlt | rfl
            · obtain ⟨h1, h2, h3⟩ := hcells j hlt hjlen
              refine ⟨h1, h2, ?_⟩
              rw [getCell_setCell_ne hin0.1 hin0.2.1 h1.1 h1.2.1
                (fun hne => by have := posAt_inj hne; omega) _]
              exact h3
            · refine ⟨hin0, hcell0, ?_⟩
              rw [getCell_setCell_self hd
                (show b.inBounds (p.posAt j) from hinb.1), hval])
          (fun r hr havoid => by
            have hner : p.posAt offset ≠ r :=
              havoid offset (Nat.lt_succ_self offset) h
            rw [getCell_setCell_ne hin0.1 hin0.2.1 hr.1 hr.2.1 hner _]
            exact hagree r hr fun j hj hjlen =>
              havoid j (Nat.lt_succ_of_lt hj) hjlen)
        exact hrec
    · rw [dif_neg h]
      refine ⟨fun e bRev heq => ?_, fun b2 heq => ?_⟩
      · cases heq
      · have hb2 : b2 = b := (Except.ok.inj heq).symm
        subst hb2
        exact ⟨hsz, hd,
          fun j hj => hcells j (lt_of_lt_of_le hj (Nat.le_of_not_lt h)) hj,
          fun r hr havoid => hagree r hr fun j hj hjlen => havoid j hjlen⟩
termination_by offset => p.letters.length - offset

/-- `ScrabbleGame::try_place` specification (the loop entered at offset 0). -/
theorem gameTryPlace_spec (pid : Nat) (p : Placement) {b₀ : GameBoard}
    (hwf : b₀.WF) :
    (∀ e bRev, gameTryPlace pid p b₀ = .error (e, bRev) →
      e = .blockedSpace ∧ bRev.tiles = b₀.tiles ∧ bRev.size = b₀.size) ∧
    (∀ b2, gameTryPlace pid p b₀ = .ok b2 →
      b2.size = b₀.size ∧ b2.DimsWF ∧
      (∀ j : Nat, j < p.letters.length →
        b₀.inBounds (p.posAt j) ∧ b₀.getCell (p.posAt j) = (.empty, .none) ∧
        b2.getCell (p.posAt j) = (p.letters.getD j .empty, .owning pid)) ∧
      (∀ r : Position, b₀.inBounds r →
        (∀ j : Nat, j < p.letters.length → p.posAt j ≠ r) →
        b2.getCell r = b₀.getCell r)) :=
  gameTryPlaceGo_spec pid p b₀ hwf 0 b₀ rfl hwf.1
    (fun j hj _ => absurd hj (Nat.not_lt_zero j))
    (fun r _ _ => rfl)

/-- On success of `try_place`, `revert_placement` restores the entry board. -/
theorem gameTryPlace_ok_revert (pid : Nat) (p : Placement) {b₀ b2 : GameBoard}
    (hwf : b₀.WF) (hok : gameTryPlace pid p b₀ = .ok b2) :
    (revertPlacement b2 p).tiles = b₀.tiles ∧
      (revertPlacement b2 p).size = b₀.size := by
  obtain ⟨hsz, hd2, hcells, hagree⟩ := (gameTryPlace_spec pid p hwf).2 b2 hok
  exact revertPlacement_restores hwf hsz hd2
    (fun j hj => ⟨(hcells j hj).1, (hcells j hj).2.1⟩) hagree

/-- The state of the player list after the rollback path (bag of the acting
player restored as a multiset, no score touched). -/
theorem rollback_players_facts {players : List Player} {cur : Nat}
    {pl : Player} {newBag letters : List ScrabbleLetter}
    (hget : players[cur]? = some pl)
    (hcons : consumeLetters letters pl.letterBag = some newBag) :
    (players.set cur { pl with letterBag := newBag ++ letters }).length =
      players.length ∧
    (∀ i : Nat,
      ((players.set cur { pl with letterBag := newBag ++ letters })[i]?).map
        Player.score = (players[i]?).map Player.score) ∧
    (∀ i : Nat, ∀ pl1 pl2 : Player, players[i]? = some pl1 →
      (players.set cur { pl with letterBag := newBag ++ letters })[i]? =
        some pl2 →
      (pl2.letterBag : Multiset ScrabbleLetter) =
        (pl1.letterBag : Multiset ScrabbleLetter)) := by
  have hlt : cur < players.length := by
    by_contra hge
    rw [List.getElem?_eq_none (Nat.le_of_not_lt hge)] at hget
    cases hget
  have hle := le_of_consumeLetters_some letters pl.letterBag newBag hcons
  have hms : (newBag : Multiset ScrabbleLetter) =
      (pl.letterBag : Multiset ScrabbleLetter) -
        (letters : Multiset ScrabbleLetter) := by
    obtain ⟨bag2, heq2, hms2⟩ := consumeLetters_of_le letters pl.letterBag hle
    rw [hcons] at heq2
    rw [Option.some_inj.mp heq2]
    exact hms2
  refine ⟨List.length_set _ _ _, fun i => ?_, fun i pl1 pl2 h1 h2 => ?_⟩
  · by_cases hic : i = cur
    · subst hic
      rw [List.getElem?_set_self hlt, hget]
      rfl
    · rw [List.getElem?_set_ne (fun hc => hic hc.symm)]
  · by_cases hic : i = cur
    · subst hic
      rw [List.getElem?_set_self hlt] at h2
      rw [hget] at h1
      cases Option.some_inj.mp h1
      cases Option.some_inj.mp h2
      show ((newBag ++ letters : List ScrabbleLetter) :
        Multiset ScrabbleLetter) = (pl.letterBag : Multiset ScrabbleLetter)
      rw [← Multiset.coe_add, hms]
      exact tsub_add_cancel_of_le hle
    · rw [List.getElem?_set_ne (fun hc => hic hc.symm)] at h2
      rw [h1] at h2
      rw [Option.some_inj.mp h2]

/-- Inversion for a placement command that returns an error: it failed at the
bag (`MissingLetters`, state untouched), at the tentative write (board
already reverted by the loop, letters appended back), or at term validation
(board reverted, letters appended back). -/
theorem placeOnBoard_err_inv {g : ScrabbleGame} {p : Placement}
    {e : ScrabbleRuntimeError} {g' : ScrabbleGame}
    (h : placeOnBoard g p = .err e g') :
    ∃ pl, g.players.get? g.currentPlayer = some pl ∧
      ((e = .missingLetters ∧ g' = g ∧
          consumeLetters p.letters pl.letterBag = none) ∨
       (∃ newBag bRev,
          consumeLetters p.letters pl.letterBag = some newBag ∧
          gameTryPlace g.currentPlayer p g.board = .error (e, bRev) ∧
          g' = { g with
                  board := bRev,
                  players := g.players.set g.currentPlayer
                    { pl with letterBag := newBag ++ p.letters } }) ∨
       (∃ newBag b2 cause,
          consumeLetters p.letters pl.letterBag = some newBag ∧
          gameTryPlace g.currentPlayer p g.board = .ok b2 ∧
          e = .invalidPlacement cause ∧
          g' = { g with
                  board := revertPlacement b2 p,
                  players := g.players.set g.currentPlayer
                    { pl with letterBag := newBag ++ p.letters } })) := by
  rw [placeOnBoard] at h
  split at h
  · cases h
  · rename_i pl hpl
    refine ⟨pl, hpl, ?_⟩
    split at h
    · rename_i hcons
      cases h
      exact Or.inl ⟨rfl, rfl, hcons⟩
    · rename_i newBag hcons
      split at h
      · rename_i e1 bRev htp
        cases h
        exact Or.inr (Or.inl ⟨newBag, bRev, hcons, htp, rfl⟩)
      · rename_i b2 htp
        split at h
        · cases h
        · rename_i termsOwners hterms
          dsimp only at h
          split at h
          · cases h
          · split at h
            · cases h
              exact Or.inr (Or.inr ⟨newBag, b2, _, hcons, htp, rfl, rfl⟩)
            · split at h
              · cases h
                exact Or.inr (Or.inr ⟨newBag, b2, _, hcons, htp, rfl, rfl⟩)
              · split at h
                · cases h
                · cases h

/-- C1: atomicity of failed placements.  Whenever `place_on_board` returns an
error (missing letters, blocked space, or invalid terms), the post-call state
has the same board cell-for-cell, the same bag contents per player as a
multiset, the same scores, the same current player and the same
first-placement flag as the pre-command state. -/
theorem C1_failed_placement_atomic (g : ScrabbleGame) (p : Placement)
    (e : ScrabbleRuntimeError) (g' : ScrabbleGame) (hwf : g.board.WF)
    (h : placeOnBoard g p = .err e g') :
    g'.board.tiles = g.board.tiles ∧
    g'.currentPlayer = g.currentPlayer ∧
    g'.isFirstPlacement = g.isFirstPlacement ∧
    g'.players.length = g.players.length ∧
    (∀ i : Nat, (g'.players[i]?).map Player.score =
      (g.players[i]?).map Player.score) ∧
    (∀ i : Nat, ∀ pl1 pl2 : Player, g.players[i]? = some pl1 →
      g'.players[i]? = some pl2 →
      (pl2.letterBag : Multiset ScrabbleLetter) =
        (pl1.letterBag : Multiset ScrabbleLetter)) := by
  obtain ⟨pl, hpl, hcase⟩ := placeOnBoard_err_inv h
  have hpl' : g.players[g.currentPlayer]? = some pl := by
    rw [← List.get?_eq_getElem?]
    exact hpl
  rcases hcase with ⟨rfl, rfl, _⟩ | ⟨newBag, bRev, hcons, htp, rfl⟩ |
      ⟨newBag, b2, cause, hcons, htp, rfl, rfl⟩
  · refine ⟨rfl, rfl, rfl, rfl, fun i => rfl, fun i pl1 pl2 h1 h2 => ?_⟩
    rw [h1] at h2
    rw [Option.some_inj.mp h2]
  · have hrest := (gameTryPlace_spec g.currentPlayer p hwf).1 e bRev htp
    obtain ⟨hlen, hscores, hbags⟩ := rollback_players_facts hpl' hcons
    exact ⟨hrest.2.1, rfl, rfl, hlen, hscores, hbags⟩
  · have hrest := gameTryPlace_ok_revert g.currentPlayer p hwf htp
    obtain ⟨hlen, hscores, hbags⟩ := rollback_players_facts hpl' hcons
    exact ⟨hrest.1, rfl, rfl, hlen, hscores, hbags⟩

/-- Witness for C1: a concrete failing placement (missing letters) leaves the
concrete game unchanged. -/
theorem C1_failed_placement_atomic_witness :
    placeOnBoard (ScrabbleGame.new 2 [[], []])
        ⟨[.num1], (0, 0), .horizontal⟩ =
      .err .missingLetters (ScrabbleGame.new 2 [[], []]) ∧
    (ScrabbleGame.new 2 [[], []]).board.tiles =
      (ScrabbleGame.new 2 [[], []]).board.tiles ∧
    (ScrabbleGame.new 2 [[], []]).currentPlayer =
      (ScrabbleGame.new 2 [[], []]).currentPlayer := by
  have h : placeOnBoard (ScrabbleGame.new 2 [[], []])
      ⟨[.num1], (0, 0), .horizontal⟩ =
      .err .missingLetters (ScrabbleGame.new 2 [[], []]) := by rfl
  have hc := C1_failed_placement_atomic (ScrabbleGame.new 2 [[], []])
    ⟨[.num1], (0, 0), .horizontal⟩ .missingLetters
    (ScrabbleGame.new 2 [[], []]) (wf_new 2) h
  exact ⟨h, hc.1, hc.2.1⟩

/-- C7: out-of-bounds cells are "not empty", so `GameBoard::try_place`
reports `BlockedSpace` there without indexing the grid; consequently a
3-letter horizontal placement starting at `x = N-2` (whose last letter would
land at `x = N`) is rejected with `BlockedSpace` and the board is unchanged
cell-for-cell. -/
theorem C7_bounds_scenario :
    (∀ (b : GameBoard) (pid : Nat) (l : ScrabbleLetter) (pos : Position),
      b.isOutOfBounds pos = true →
      b.isEmpty pos = false ∧ b.tryPlace pid l pos = .error .blockedSpace) ∧
    (∀ (g : ScrabbleGame) (y : Int) (letters : List ScrabbleLetter)
        (pl : Player) (newBag : List ScrabbleLetter),
      g.board.WF →
      letters.length = 3 →
      g.players.get? g.currentPlayer = some pl →
      consumeLetters letters pl.letterBag = some newBag →
      ∃ g',
        placeOnBoard g
            ⟨letters, ((g.board.size : Int) - 2, y), .horizontal⟩ =
          .err .blockedSpace g' ∧
        g'.board.tiles = g.board.tiles) := by
  constructor
  · intro b pid l pos hoob
    have hemp := isEmpty_of_oob hoob
    exact ⟨hemp, tryPlace_error_iff.mpr ⟨hemp, rfl⟩⟩
  · intro g y letters pl newBag hwf hlen3 hpl hcons
    set p : Placement :=
      ⟨letters, ((g.board.size : Int) - 2, y), .horizontal⟩ with hp
    cases htp : gameTryPlace g.currentPlayer p g.board with
    | ok b2 =>
      exfalso
      obtain ⟨hin, -, -⟩ :=
        ((gameTryPlace_spec g.currentPlayer p hwf).2 b2 htp).2.2.1 2
          (by rw [hp]; simp [hlen3])
      rw [hp] at hin
      obtain ⟨-, -, hx, -⟩ := hin
      simp [Placement.posAt, movePosition, Direction.asVec] at hx
    | error eb =>
      rcases eb with ⟨e1, bRev⟩
      obtain ⟨rfl, htiles, -⟩ :=
        (gameTryPlace_spec g.currentPlayer p hwf).1 e1 bRev htp
      refine ⟨{ g with
                 board := bRev,
                 players := g.players.set g.currentPlayer
                   { pl with letterBag := newBag ++ p.letters } }, ?_, htiles⟩
      rw [placeOnBoard]
      rw [show g.players.get? g.currentPlayer = some pl from hpl]
      simp only [hcons, htp]

/-- Witness for C7 at concrete inputs. -/
theorem C7_bounds_scenario_witness :
    ((GameBoard.new 4).isEmpty (4, 0) = false ∧
      (GameBoard.new 4).tryPlace 0 .num1 (4, 0) = .error .blockedSpace) ∧
    (∃ g',
      placeOnBoard (ScrabbleGame.new 4 [[.num1, .num2, .plus]])
          ⟨[.num1, .num2, .plus],
            (((ScrabbleGame.new 4 [[.num1, .num2, .plus]]).board.size : Int) - 2,
              0),
            .horizontal⟩ =
        .err .blockedSpace g' ∧
      g'.board.tiles =
        (ScrabbleGame.new 4 [[.num1, .num2, .plus]]).board.tiles) := by
  refine ⟨C7_bounds_scenario.1 (GameBoard.new 4) 0 .num1 (4, 0) (by decide), ?_⟩
  exact C7_bounds_scenario.2 (ScrabbleGame.new 4 [[.num1, .num2, .plus]]) 0
    [.num1, .num2, .plus] ⟨[.num1, .num2, .plus], 0⟩ [] (wf_new 4) rfl rfl rfl

/-- A `Bool` that is not `true` is `false`. -/
theorem bool_ne_true {b : Bool} (h : ¬(b = true)) : b = false := by
  cases b <;> simp_all

/-- A `Bool` whose negation is not `true` is `true`. -/
theorem bool_not_ne_true {b : Bool} (h : ¬((!b) = true)) : b = true := by
  cases b <;> simp_all

/-- Boards with equal size and tiles are equal. -/
theorem board_eq_of_parts {b b' : GameBoard} (hs : b'.size = b.size)
    (ht : b'.tiles = b.tiles) : b' = b := by
  cases b
  cases b'
  simp_all

/-- Inversion for a placement command that succeeds: letters were consumed,
the tentative write went through, terms were derived, the first-placement
assert passed, all surviving terms evaluated, at least one term survived,
and the scores were committed; the turn advanced. -/
theorem placeOnBoard_ok_inv {g : ScrabbleGame} {p : Placement}
    {g' : ScrabbleGame} (h : placeOnBoard g p = .ok g') :
    ∃ pl newBag b2 termsOwners players2,
      g.players.get? g.currentPlayer = some pl ∧
      consumeLetters p.letters pl.letterBag = some newBag ∧
      gameTryPlace g.currentPlayer p g.board = .ok b2 ∧
      getPlacementTerms b2 p = some termsOwners ∧
      (g.isFirstPlacement &&
        ((termsOwners.filter fun t => !t.1.isSingleton).map Prod.fst).length
          != 1) = false ∧
      (((termsOwners.filter fun t => !t.1.isSingleton).map Prod.fst).map
        Term.evaluate).all (fun res => res.toOption.isSome) = true ∧
      ((termsOwners.filter fun t => !t.1.isSingleton).map Prod.fst).isEmpty =
        false ∧
      applyScores
          (g.players.set g.currentPlayer { pl with letterBag := newBag })
          (((termsOwners.filter fun t => !t.1.isSingleton).map Prod.snd).zip
            ((((termsOwners.filter fun t => !t.1.isSingleton).map
              Prod.fst).map Term.evaluate).map
                (fun res => res.toOption.getD 0))) = some players2 ∧
      g' = { players := players2,
             currentPlayer := (g.currentPlayer + 1) % players2.length,
             board := b2,
             isFirstPlacement := false } := by
  rw [placeOnBoard] at h
  split at h
  · cases h
  · rename_i pl hpl
    split at h
    · cases h
    · rename_i newBag hcons
      split at h
      · cases h
      · rename_i b2 htp
        split at h
        · cases h
        · rename_i termsOwners hterms
          dsimp only at h
          split at h
          · cases h
          · rename_i hassert
            split at h
            · cases h
            · rename_i hvalid
              split at h
              · cases h
              · rename_i hempty
                split at h
                · cases h
                · rename_i players2 happ
                  cases h
                  exact ⟨pl, newBag, b2, termsOwners, players2, hpl, hcons,
                    htp, hterms, bool_ne_true hassert, bool_not_ne_true hvalid,
                    bool_ne_true hempty, happ, rfl⟩

/-- The board written by a successful `try_place` loop is well-formed when
the placed letters are not `Empty`. -/
theorem wf_board_after_tryPlace {pid : Nat} {p : Placement} {b₀ b2 : GameBoard}
    (hwf : b₀.WF) (hlet : ∀ l ∈ p.letters, l ≠ .empty)
    (hok : gameTryPlace pid p b₀ = .ok b2) : b2.WF := by
  obtain ⟨hsz, hd2, hcells, hagree⟩ := (gameTryPlace_spec pid p hwf).2 b2 hok
  refine ⟨hd2, fun r hin2 => ?_⟩
  have hin0 : b₀.inBounds r := (inBounds_of_size_eq hsz r).mp hin2
  by_cases hhit : ∃ j : Nat, j < p.letters.length ∧ p.posAt j = r
  · rcases hhit with ⟨j, hj, hfj⟩
    rw [← hfj, (hcells j hj).2.2]
    refine Or.inr ⟨?_, pid, rfl⟩
    have : p.letters.getD j .empty = p.letters[j] := by
      rw [List.getD_eq_getElem?_getD, List.getElem?_eq_getElem hj]
      rfl
    rw [this]
    exact hlet _ (List.getElem_mem hj)
  · push_neg at hhit
    rw [hagree r hin0 hhit]
    exact hwf.2 r hin0

/-- Every non-panicking outcome of `place_on_board` carries a well-formed
board, provided the input board is well-formed and the placed letters are
not `Empty`. -/
theorem wf_placeOnBoard {g : ScrabbleGame} {p : Placement}
    (hwf : g.board.WF) (hlet : ∀ l ∈ p.letters, l ≠ .empty) :
    ∀ g2, (placeOnBoard g p).state = some g2 → g2.board.WF := by
  intro g2 hst
  cases hout : placeOnBoard g p with
  | panic =>
    rw [hout] at hst
    cases hst
  | ok gr =>
    rw [hout] at hst
    cases Option.some_inj.mp hst
    obtain ⟨pl, newBag, b2, termsOwners, players2, -, -, htp, -, -, -, -, -,
      rfl⟩ := placeOnBoard_ok_inv hout
    exact wf_board_after_tryPlace hwf hlet htp
  | err e gr =>
    rw [hout] at hst
    cases Option.some_inj.mp hst
    obtain ⟨pl, hpl, hcase⟩ := placeOnBoard_err_inv hout
    rcases hcase with ⟨-, rfl, -⟩ | ⟨newBag, bRev, -, htp, rfl⟩ |
        ⟨newBag, b2, cause, -, htp, -, rfl⟩
    · exact hwf
    · obtain ⟨-, htiles, hsz⟩ :=
        (gameTryPlace_spec g.currentPlayer p hwf).1 e bRev htp
      rw [show ({ g with
          board := bRev,
          players := g.players.set g.currentPlayer
            { pl with letterBag := newBag ++ p.letters } } :
            ScrabbleGame).board = bRev from rfl]
      rw [board_eq_of_parts hsz htiles]
      exact hwf
    · obtain ⟨htiles, hsz⟩ := gameTryPlace_ok_revert g.currentPlayer p hwf htp
      rw [show ({ g with
          board := revertPlacement b2 p,
          players := g.players.set g.currentPlayer
            { pl with letterBag := newBag ++ p.letters } } :
            ScrabbleGame).board = revertPlacement b2 p from rfl]
      rw [board_eq_of_parts hsz htiles]
      exact hwf

/-- C10: cell well-formedness invariant.  The parser's letter conversion
never yields `Empty`; a fresh board is well-formed; `try_place` with a
non-`Empty` letter and `clear` preserve the invariant; and every state
reachable through `execute_command` with non-`Empty` placement letters keeps
every cell either `(Empty, None)` or occupied-and-owned. -/
theorem C10_cell_invariant :
    (∀ (c : Char) (l : ScrabbleLetter),
      ScrabbleLetter.fromChar c = some l → l ≠ .empty) ∧
    (∀ n : Nat, (GameBoard.new n).WF) ∧
    (∀ (b b' : GameBoard) (pid : Nat) (l : ScrabbleLetter) (pos : Position),
      b.CellsWF → l ≠ .empty → b.tryPlace pid l pos = .ok b' → b'.CellsWF) ∧
    (∀ (b : GameBoard) (pos : Position), b.CellsWF → (b.clear pos).CellsWF) ∧
    (∀ (g : ScrabbleGame) (c : Command) (g2 : ScrabbleGame),
      g.board.WF →
      (∀ q : Placement, c = .place q → ∀ l ∈ q.letters, l ≠ .empty) →
      (executeCommand g c).state = some g2 → g2.board.WF) := by
  refine ⟨?_, ?_, ?_, ?_, ?_⟩
  · intro c l h hle
    subst hle
    rw [ScrabbleLetter.fromChar.eq_def] at h
    split at h <;> simp_all
  · exact wf_new
  · intro b b' pid l pos hcw hne hok
    obtain ⟨-, rfl⟩ := tryPlace_ok_iff.mp hok
    exact cellsWF_setCell hcw (Or.inr ⟨hne, pid, rfl⟩) pos
  · intro b pos hcw
    exact cellsWF_clear hcw pos
  · intro g c g2 hwf hlet hst
    cases c with
    | quit => cases hst
    | print =>
      cases Option.some_inj.mp hst
      exact hwf
    | score playerId =>
      rw [executeCommand] at hst
      split at hst <;> (cases Option.some_inj.mp hst; exact hwf)
    | bag playerId =>
      rw [executeCommand] at hst
      split at hst <;> (cases Option.some_inj.mp hst; exact hwf)
    | place q =>
      exact wf_placeOnBoard hwf (hlet q rfl) g2 hst

/-- Witness for C10 at concrete inputs. -/
theorem C10_cell_invariant_witness :
    ((ScrabbleGame.new 3 [[.num1], [.num2]]).board.WF) ∧
    (∀ g2, (executeCommand (ScrabbleGame.new 3 [[.num1], [.num2]])
        (.place ⟨[.num1], (0, 0), .horizontal⟩)).state = some g2 →
      g2.board.WF) := by
  constructor
  · exact C10_cell_invariant.2.1 3
  · intro g2 hst
    exact C10_cell_invariant.2.2.2.2 (ScrabbleGame.new 3 [[.num1], [.num2]])
      (.place ⟨[.num1], (0, 0), .horizontal⟩) g2 (wf_new 3)
      (fun q hq l hl => by
        cases hq
        simp at hl
        rw [hl]
        simp) hst

/-! ## Term-walk lemmas -/

/-- A `Bool` that is not `false` is `true`. -/
theorem bool_ne_false {b : Bool} (h : ¬(b = false)) : b = true := by
  cases b <;> simp_all

/-- Every position collected by the walk satisfies the continue condition. -/
theorem mem_collectGo_walkable {b : GameBoard} {pos : Position}
    {dir : Direction} {iterDir : Int} :
    ∀ (fuel : Nat) (off : Int) (q : Position),
      q ∈ collectGo b pos dir iterDir fuel off → b.walkable q = true
  | 0, _, _, hq => absurd hq (by simp [collectGo])
  | fuel + 1, off, q, hq => by
    rw [collectGo] at hq
    by_cases hstop : (b.isOutOfBounds (movePosition pos off dir) ||
        b.isEmpty (movePosition pos off dir)) = true
    · rw [if_pos hstop] at hq
      cases hq
    · rw [if_neg hstop] at hq
      rcases List.mem_cons.mp hq with rfl | hmem
      · rw [GameBoard.walkable, bool_ne_true hstop]
        rfl
      · exact mem_collectGo_walkable fuel (off + iterDir) q hmem

/-- Characterization of the walk: if the first `m` offsets (in step
direction) are walkable and the `m`-th is not, the walk collects exactly
those `m` positions, provided the fuel exceeds `m`. -/
theorem collectGo_eq {b : GameBoard} {pos : Position} {dir : Direction}
    {step : Int} :
    ∀ (m : Nat) (fuel : Nat) (off : Int), m < fuel →
      (∀ t : Nat, t < m →
        b.walkable (movePosition pos (off + (t : Int) * step) dir) = true) →
      b.walkable (movePosition pos (off + (m : Int) * step) dir) = false →
      collectGo b pos dir step fuel off =
        (List.range m).map
          (fun (t : Nat) => movePosition pos (off + (t : Int) * step) dir)
  | 0, fuel + 1, off, _, _, hstop => by
    rw [collectGo]
    rw [if_pos (by
      rw [stop_iff_not_walkable]
      rw [show off + ((0 : Nat) : Int) * step = off by push_cast; ring] at hstop
      rw [hstop]
      rfl)]
    simp
  | m + 1, fuel + 1, off, hfuel, hwalk, hstop => by
    rw [collectGo]
    have hw0 : b.walkable (movePosition pos off dir) = true := by
      have := hwalk 0 (Nat.succ_pos m)
      rw [show off + ((0 : Nat) : Int) * step = off by push_cast; ring] at this
      exact this
    rw [if_neg (by rw [stop_iff_not_walkable, hw0]; simp)]
    have hrec := collectGo_eq m fuel (off + step) (Nat.lt_of_succ_lt_succ hfuel)
      (fun t ht => by
        have := hwalk (t + 1) (Nat.succ_lt_succ ht)
        rw [show off + ((t + 1 : Nat) : Int) * step = off + step + (t : Int) * step by
          push_cast; ring] at this
        exact this)
      (by
        rw [show off + step + (m : Int) * step = off + ((m + 1 : Nat) : Int) * step by
          push_cast; ring]
        exact hstop)
    rw [hrec, List.range_succ_eq_map, List.map_cons, List.map_map]
    congr 1
    · rw [show off + ((0 : Nat) : Int) * step = off by push_cast; ring]
    · apply List.map_congr_left
      intro t _
      simp only [Function.comp_apply]
      congr 1
      push_cast
      ring

/-- Offset zero does not move the position. -/
theorem movePosition_zero (pos : Position) (dir : Direction) :
    movePosition pos 0 dir = pos := by
  cases dir <;> simp [movePosition, Direction.asVec]

/-- Walking in a unit-step direction hits a stop (the board edge if nothing
else) after finitely many steps. -/
theorem exists_stop (b : GameBoard) (pos : Position) (dir : Direction)
    {step : Int} (hstep : step = 1 ∨ step = -1) :
    ∃ m : Nat,
      b.walkable (movePosition pos ((m : Int) * step) dir) = false := by
  refine ⟨b.size + pos.1.toNat + (-pos.1).toNat + pos.2.toNat +
    (-pos.2).toNat + 1, bool_ne_true fun hw => ?_⟩
  have hin := ((walkable_iff _ _).mp hw).1
  rcases hstep with rfl | rfl <;> cases dir <;>
    (simp [GameBoard.inBounds, movePosition, Direction.asVec] at hin; omega)

/-- A walkable run of length `m` from a walkable anchor stays on the board,
so `m` is at most the board size. -/
theorem run_le_size {b : GameBoard} {pos : Position} {dir : Direction}
    {step : Int} (hstep : step = 1 ∨ step = -1) (m : Nat) (hpos : 0 < m)
    (hwalkAll : ∀ t : Nat, t < m →
      b.walkable (movePosition pos ((t : Int) * step) dir) = true) :
    m ≤ b.size := by
  have hlast := hwalkAll (m - 1) (by omega)
  have hfirst := hwalkAll 0 hpos
  have hin1 := ((walkable_iff _ _).mp hlast).1
  have hin0 := ((walkable_iff _ _).mp hfirst).1
  rcases hstep with rfl | rfl <;> cases dir <;>
    (simp [GameBoard.inBounds, movePosition, Direction.asVec] at hin1 hin0;
      omega)

/-- Full characterization of one direction of the term walk: it returns the
positions at offsets `0, step, …, (m-1)·step` for the least `m` whose offset
is not walkable, and `m` never exceeds the board size (so the fuel
`size + 1` of the model never runs out and the walk equals the source's
unbounded iterator). -/
theorem collectToTermEnd_eq (b : GameBoard) (pos : Position) (dir : Direction)
    {step : Int} (hstep : step = 1 ∨ step = -1)
    (hw : b.walkable pos = true) :
    ∃ m : Nat, 0 < m ∧ m ≤ b.size ∧
      collectToTermEnd b pos dir step =
        (List.range m).map
          (fun (t : Nat) => movePosition pos ((t : Int) * step) dir) ∧
      (∀ t : Nat, t < m →
        b.walkable (movePosition pos ((t : Int) * step) dir) = true) ∧
      b.walkable (movePosition pos ((m : Int) * step) dir) = false := by
  have hex := exists_stop b pos dir hstep
  have hmin : ∀ t : Nat, t < Nat.find hex →
      b.walkable (movePosition pos ((t : Int) * step) dir) = true :=
    fun t ht => bool_ne_false (Nat.find_min hex ht)
  have hstop := Nat.find_spec hex
  have hpos : 0 < Nat.find hex := by
    rcases Nat.eq_zero_or_pos (Nat.find hex) with h0 | h
    · exfalso
      rw [h0] at hstop
      rw [show ((0 : Nat) : Int) * step = 0 by push_cast; ring,
        movePosition_zero] at hstop
      rw [hw] at hstop
      cases hstop
    · exact h
  have hle : Nat.find hex ≤ b.size := run_le_size hstep _ hpos hmin
  refine ⟨Nat.find hex, hpos, hle, ?_, hmin, hstop⟩
  rw [collectToTermEnd]
  have heq := @collectGo_eq b pos dir step
    (Nat.find hex) (b.size + 1) 0 (by omega)
    (fun t ht => by
      rw [zero_add]
      exact hmin t ht)
    (by
      rw [zero_add]
      exact hstop)
  rw [heq]
  apply List.map_congr_left
  intro t _
  rw [zero_add]

/-- Every position of the term sequence is walkable. -/
theorem mem_termPositions_walkable {b : GameBoard} {a : Position}
    {d : Direction} {q : Position} (hq : q ∈ termPositions b a d) :
    b.walkable q = true := by
  rw [termPositions] at hq
  rcases List.mem_append.mp hq with h1 | h2
  · exact mem_collectGo_walkable (b.size + 1) 0 q (List.mem_reverse.mp h1)
  · exact mem_collectGo_walkable (b.size + 1) 0 q (List.mem_of_mem_drop h2)

/-- A list of in-bounds positions can be read with `try_get` without ever
hitting the out-of-bounds error. -/
theorem mapM_tryGet_of_inBounds {b : GameBoard} :
    ∀ l : List Position, (∀ q ∈ l, b.isOutOfBounds q = false) →
      l.mapM (fun pos => (b.tryGet pos).toOption) =
        some (l.map (fun pos => b.getCell pos))
  | [], _ => rfl
  | q :: rest, h => by
    have hq : b.tryGet q = .ok (b.getCell q) := by
      rw [GameBoard.tryGet, if_neg (by rw [h q (List.mem_cons_self q rest)]; simp)]
    rw [List.mapM_cons]
    rw [hq, mapM_tryGet_of_inBounds rest
      (fun r hr => h r (List.mem_cons_of_mem q hr))]
    rfl

/-- C9: the term walk only produces in-bounds positions, so the
`PositionOutOfBounds` branch of `try_get` (and with it the fatal `expect`)
is unreachable from `get_term`. -/
theorem C9_term_walk_in_bounds :
    (∀ (b : GameBoard) (a : Position) (d : Direction) (q : Position),
      q ∈ termPositions b a d →
      b.isOutOfBounds q = false ∧ b.tryGet q = .ok (b.getCell q)) ∧
    (∀ (b : GameBoard) (a : Position) (d : Direction),
      (termPositions b a d).mapM (fun pos => (b.tryGet pos).toOption) =
        some ((termPositions b a d).map (fun pos => b.getCell pos))) := by
  have hoob : ∀ (b : GameBoard) (a : Position) (d : Direction) (q : Position),
      q ∈ termPositions b a d → b.isOutOfBounds q = false := by
    intro b a d q hq
    exact (isOutOfBounds_eq_false_iff b q).mpr
      ((walkable_iff b q).mp (mem_termPositions_walkable hq)).1
  refine ⟨fun b a d q hq => ?_, fun b a d => ?_⟩
  · have h := hoob b a d q hq
    refine ⟨h, ?_⟩
    rw [GameBoard.tryGet, if_neg (by rw [h]; simp)]
  · exact mapM_tryGet_of_inBounds _ (hoob b a d)

/-- Witness for C9 at a concrete board and anchor. -/
theorem C9_term_walk_in_bounds_witness :
    ((GameBoard.new 2).setCell (0, 0) (.num1, .owning 0)).isOutOfBounds
        (0, 0) = false ∧
    ((GameBoard.new 2).setCell (0, 0) (.num1, .owning 0)).tryGet (0, 0) =
      .ok (((GameBoard.new 2).setCell (0, 0) (.num1, .owning 0)).getCell
        (0, 0)) :=
  C9_term_walk_in_bounds.1 ((GameBoard.new 2).setCell (0, 0) (.num1, .owning 0))
    (0, 0) .horizontal (0, 0) (by decide)

/-- The ownership resolution never hits the empty-frequency assert for a
non-empty owner list. -/
theorem determineOwner_isSome {owners : List Owner} (h : owners ≠ []) :
    ∃ o, determineOwner owners = some o := by
  have hfreq : frequency owners ≠ [] := by
    rw [frequency]
    intro hc
    exact h ((List.dedup_eq_nil _).mp (List.map_eq_nil.mp hc))
  have hsort : sortFreqs (frequency owners) ≠ [] := by
    rw [sortFreqs]
    intro hc
    have hp := List.mergeSort_perm (frequency owners)
      (fun a b => decide (b.2 ≤ a.2))
    rw [hc] at hp
    exact hfreq hp.nil_eq.symm
  rcases hs : sortFreqs (frequency owners) with _ | ⟨f, _ | ⟨f2, rest⟩⟩
  · exact absurd hs hsort
  · exact ⟨f.1, by rw [determineOwner, hs]⟩
  · exact ⟨if f.2 == f2.2 then Owner.none else f.1, by rw [determineOwner, hs]⟩

/-- For a walkable anchor, the term position sequence is the contiguous run
of offsets `-k..m` around the anchor, maximal in both directions, and
`get_term` reads exactly those cells. -/
theorem termPositions_spec (b : GameBoard) (a : Position) (d : Direction)
    (hw : b.walkable a = true) :
    ∃ (k m : Nat) (o : Owner),
      termPositions b a d =
        (List.range (k + 1 + m)).map
          (fun (t : Nat) => movePosition a ((t : Int) - (k : Int)) d) ∧
      (∀ i : Int, -(k : Int) ≤ i → i ≤ (m : Int) →
        b.walkable (movePosition a i d) = true) ∧
      b.walkable (movePosition a (-(k : Int) - 1) d) = false ∧
      b.walkable (movePosition a ((m : Int) + 1) d) = false ∧
      determineOwner
        ((termPositions b a d).map (fun q => (b.getCell q).2)) = some o ∧
      getTerm b a d =
        some (⟨(termPositions b a d).map (fun q => (b.getCell q).1)⟩, o) := by
  obtain ⟨mb, hmb0, hmble, hbw, hbwalk, hbstop⟩ :=
    collectToTermEnd_eq b a d (Or.inr rfl) hw
  obtain ⟨mf, hmf0, hmfle, hfw, hfwalk, hfstop⟩ :=
    collectToTermEnd_eq b a d (Or.inl rfl) hw
  have hposeq : termPositions b a d =
      ((List.range mb).map
        (fun (t : Nat) => movePosition a ((t : Int) * -1) d)).reverse ++
      ((List.range mf).map
        (fun (t : Nat) => movePosition a ((t : Int) * 1) d)).drop 1 := by
    rw [termPositions]
    simp only [termDirDec, termDirInc]
    rw [hbw, hfw]
  have heq : termPositions b a d =
      (List.range ((mb - 1) + 1 + (mf - 1))).map
        (fun (t : Nat) =>
          movePosition a ((t : Int) - ((mb - 1 : Nat) : Int)) d) := by
    rw [hposeq]
    apply List.ext_getElem
    · simp
      omega
    · intro i h1 h2
      rw [List.getElem_map, List.getElem_range]
      by_cases hi : i < mb
      · rw [List.getElem_append_left (by simpa using hi)]
        rw [List.getElem_reverse]
        rw [List.getElem_map, List.getElem_range]
        congr 1
        simp only [List.length_map, List.length_range]
        omega
      · rw [List.getElem_append_right (by simpa using hi)]
        rw [List.getElem_drop]
        rw [List.getElem_map, List.getElem_range]
        congr 1
        simp only [List.length_map, List.length_range, List.length_reverse]
        omega
  have hwalkint : ∀ i : Int, -((mb - 1 : Nat) : Int) ≤ i →
      i ≤ ((mf - 1 : Nat) : Int) →
      b.walkable (movePosition a i d) = true := by
    intro i hge hle
    by_cases hi : 0 ≤ i
    · have hc := hfwalk i.toNat (by omega)
      have hcast : ((i.toNat : Int)) * 1 = i := by omega
      rw [hcast] at hc
      exact hc
    · have hc := hbwalk (-i).toNat (by omega)
      have hcast : (((-i).toNat : Int)) * -1 = i := by omega
      rw [hcast] at hc
      exact hc
  have hbs : b.walkable
      (movePosition a (-((mb - 1 : Nat) : Int) - 1) d) = false := by
    have hcast : ((mb : Int)) * -1 = -((mb - 1 : Nat) : Int) - 1 := by omega
    rw [hcast] at hbstop
    exact hbstop
  have hfs : b.walkable
      (movePosition a (((mf - 1 : Nat) : Int) + 1) d) = false := by
    have hcast : ((mf : Int)) * 1 = ((mf - 1 : Nat) : Int) + 1 := by omega
    rw [hcast] at hfstop
    exact hfstop
  have hne : (termPositions b a d).map (fun q => (b.getCell q).2) ≠ [] := by
    rw [heq]
    simp only [List.map_map, ne_eq, List.map_eq_nil_iff, List.range_eq_nil]
    omega
  obtain ⟨o, ho⟩ := determineOwner_isSome hne
  refine ⟨mb - 1, mf - 1, o, heq, hwalkint, hbs, hfs, ho, ?_⟩
  have hoobs : ∀ q ∈ termPositions b a d, b.isOutOfBounds q = false :=
    fun q hq => (isOutOfBounds_eq_false_iff b q).mpr
      ((walkable_iff b q).mp (mem_termPositions_walkable hq)).1
  rw [getTerm, mapM_tryGet_of_inBounds _ hoobs]
  dsimp only
  have hsnd : ((termPositions b a d).map (fun pos => b.getCell pos)).map
      Prod.snd = (termPositions b a d).map (fun q => (b.getCell q).2) := by
    rw [List.map_map]
    rfl
  have hfst : ((termPositions b a d).map (fun pos => b.getCell pos)).map
      Prod.fst = (termPositions b a d).map (fun q => (b.getCell q).1) := by
    rw [List.map_map]
    rfl
  rw [hsnd, ho]
  dsimp only
  rw [hfst]

/-- C8: for a non-empty in-bounds anchor, `get_term` reads exactly the
maximal contiguous run of non-empty in-bounds cells containing the anchor —
the backward run (reversed) concatenated with the forward run with the
duplicate anchor skipped — extending in each direction until an empty cell
or the board edge. -/
theorem C8_term_is_maximal_run (b : GameBoard) (a : Position) (d : Direction)
    (hw : b.walkable a = true) :
    ∃ (k m : Nat) (o : Owner),
      termPositions b a d =
        (List.range (k + 1 + m)).map
          (fun (t : Nat) => movePosition a ((t : Int) - (k : Int)) d) ∧
      (∀ i : Int, -(k : Int) ≤ i → i ≤ (m : Int) →
        b.walkable (movePosition a i d) = true) ∧
      b.walkable (movePosition a (-(k : Int) - 1) d) = false ∧
      b.walkable (movePosition a ((m : Int) + 1) d) = false ∧
      determineOwner
        ((termPositions b a d).map (fun q => (b.getCell q).2)) = some o ∧
      getTerm b a d =
        some (⟨(termPositions b a d).map (fun q => (b.getCell q).1)⟩, o) :=
  termPositions_spec b a d hw

/-- Witness for C8 on a concrete board with two occupied cells. -/
theorem C8_term_is_maximal_run_witness :
    ∃ (k m : Nat) (o : Owner),
      termPositions
          (((GameBoard.new 3).setCell (0, 0) (.num1, .owning 0)).setCell
            (1, 0) (.num2, .owning 0)) (1, 0) .horizontal =
        (List.range (k + 1 + m)).map
          (fun (t : Nat) =>
            movePosition (1, 0) ((t : Int) - (k : Int)) .horizontal) ∧
      (∀ i : Int, -(k : Int) ≤ i → i ≤ (m : Int) →
        (((GameBoard.new 3).setCell (0, 0) (.num1, .owning 0)).setCell
          (1, 0) (.num2, .owning 0)).walkable
            (movePosition (1, 0) i .horizontal) = true) ∧
      (((GameBoard.new 3).setCell (0, 0) (.num1, .owning 0)).setCell
        (1, 0) (.num2, .owning 0)).walkable
          (movePosition (1, 0) (-(k : Int) - 1) .horizontal) = false ∧
      (((GameBoard.new 3).setCell (0, 0) (.num1, .owning 0)).setCell
        (1, 0) (.num2, .owning 0)).walkable
          (movePosition (1, 0) ((m : Int) + 1) .horizontal) = false ∧
      determineOwner
        ((termPositions
          (((GameBoard.new 3).setCell (0, 0) (.num1, .owning 0)).setCell
            (1, 0) (.num2, .owning 0)) (1, 0) .horizontal).map
          (fun q =>
            ((((GameBoard.new 3).setCell (0, 0) (.num1, .owning 0)).setCell
              (1, 0) (.num2, .owning 0)).getCell q).2)) = some o ∧
      getTerm
          (((GameBoard.new 3).setCell (0, 0) (.num1, .owning 0)).setCell
            (1, 0) (.num2, .owning 0)) (1, 0) .horizontal =
        some (⟨(termPositions
            (((GameBoard.new 3).setCell (0, 0) (.num1, .owning 0)).setCell
              (1, 0) (.num2, .owning 0)) (1, 0) .horizontal).map
          (fun q =>
            ((((GameBoard.new 3).setCell (0, 0) (.num1, .owning 0)).setCell
              (1, 0) (.num2, .owning 0)).getCell q).1)⟩, o) :=
  C8_term_is_maximal_run
    (((GameBoard.new 3).setCell (0, 0) (.num1, .owning 0)).setCell
      (1, 0) (.num2, .owning 0)) (1, 0) .horizontal (by decide)

/-! ## Ownership-resolution lemmas -/

/-- Membership in the frequency list: entries are exactly the values of the
list paired with their counts. -/
theorem mem_frequency_iff {α : Type} [DecidableEq α] {l : List α}
    {e : α × Nat} : e ∈ frequency l ↔ e.1 ∈ l ∧ e.2 = l.count e.1 := by
  rw [frequency]
  constructor
  · intro he
    rcases List.mem_map.mp he with ⟨o, ho, hoe⟩
    rw [← hoe]
    exact ⟨List.mem_dedup.mp ho, rfl⟩
  · intro ⟨h1, h2⟩
    refine List.mem_map.mpr ⟨e.1, List.mem_dedup.mpr h1, ?_⟩
    rw [← h2]

/-- The frequency list has pairwise-distinct keys. -/
theorem frequency_fst_nodup {α : Type} [DecidableEq α] (l : List α) :
    ((frequency l).map Prod.fst).Nodup := by
  rw [frequency, List.map_map]
  have hcomp : (Prod.fst ∘ fun o => (o, l.count o)) = id := rfl
  rw [hcomp, List.map_id]
  exact l.nodup_dedup

/-- The sort step permutes the frequency list. -/
theorem sortFreqs_perm (freqs : List (Owner × Nat)) :
    (sortFreqs freqs).Perm freqs :=
  List.mergeSort_perm freqs _

/-- The sort step yields a list descending in the counts. -/
theorem sortFreqs_sorted (freqs : List (Owner × Nat)) :
    (sortFreqs freqs).Pairwise (fun x y => y.2 ≤ x.2) := by
  have h := @List.sorted_mergeSort (Owner × Nat)
    (fun a b => decide (b.2 ≤ a.2))
    (fun a b c hab hbc =>
      decide_eq_true
        (le_trans (of_decide_eq_true hbc) (of_decide_eq_true hab)))
    (fun a b => by
      rcases Nat.le_total b.2 a.2 with hle | hle <;> simp [hle])
    freqs
  exact h.imp fun hd => of_decide_eq_true hd

/-- C3: term ownership.  A strictly-highest tally wins the term; when the two
highest tallies are equal the term is unowned; and an unowned term's value
is credited to no player (the score fold skips it). -/
theorem C3_ownership :
    (∀ (owners : List Owner) (p : Nat),
      Owner.owning p ∈ owners →
      (∀ o ∈ owners, o ≠ Owner.owning p →
        owners.count o < owners.count (Owner.owning p)) →
      determineOwner owners = some (Owner.owning p)) ∧
    (∀ (owners : List Owner) (a b : Owner),
      a ∈ owners → b ∈ owners → a ≠ b →
      owners.count a = owners.count b →
      (∀ o ∈ owners, owners.count o ≤ owners.count a) →
      determineOwner owners = some Owner.none) ∧
    (∀ (players : List Player) (v : Int) (rest : List (Owner × Int)),
      applyScores players ((Owner.none, v) :: rest) =
        applyScores players rest) := by
  refine ⟨?_, ?_, fun players v rest => rfl⟩
  · intro owners p hmem hmax
    have hperm := sortFreqs_perm (frequency owners)
    have hsorted := sortFreqs_sorted (frequency owners)
    have hEP : (Owner.owning p, owners.count (Owner.owning p)) ∈
        sortFreqs (frequency owners) :=
      hperm.mem_iff.mpr (mem_frequency_iff.mpr ⟨hmem, rfl⟩)
    have hval : ∀ f ∈ sortFreqs (frequency owners),
        f.1 ∈ owners ∧ f.2 = owners.count f.1 :=
      fun f hf => mem_frequency_iff.mp (hperm.mem_iff.mp hf)
    have hnodup : ((sortFreqs (frequency owners)).map Prod.fst).Nodup :=
      ((hperm.map Prod.fst).nodup_iff).mpr (frequency_fst_nodup owners)
    rcases hs : sortFreqs (frequency owners) with _ | ⟨f1, _ | ⟨f2, rest⟩⟩
    · rw [hs] at hEP
      cases hEP
    · rw [hs] at hEP
      rcases List.mem_singleton.mp hEP with rfl
      rw [determineOwner, hs]
    · rw [hs] at hEP hval hsorted hnodup
      by_cases hf1 : f1 = (Owner.owning p, owners.count (Owner.owning p))
      · have hf2ne : f2.1 ≠ Owner.owning p := by
          intro hc
          rw [List.map_cons, List.map_cons, List.nodup_cons] at hnodup
          exact hnodup.1 (by rw [hf1, hc]; exact List.mem_cons_self _ _)
        have hf2lt : f2.2 < f1.2 := by
          obtain ⟨hf2mem, hf2cnt⟩ := hval f2 (by simp)
          rw [hf1, hf2cnt]
          exact hmax f2.1 hf2mem hf2ne
        rw [determineOwner, hs]
        have hne : (f1.2 == f2.2) = false := by
          simp only [beq_eq_false_iff_ne, ne_eq]
          omega
        dsimp only
        rw [hne, hf1]
        simp
      · exfalso
        have hf1lt : f1.2 < owners.count (Owner.owning p) := by
          obtain ⟨hf1mem, hf1cnt⟩ := hval f1 (by simp)
          rcases eq_or_ne f1.1 (Owner.owning p) with hc | hc
          · exact absurd (Prod.ext hc (by rw [hf1cnt, hc])) hf1
          · rw [hf1cnt]
            exact hmax f1.1 hf1mem hc
        have hEPtail : (Owner.owning p, owners.count (Owner.owning p)) ∈
            f2 :: rest := by
          rcases List.mem_cons.mp hEP with hc | hc
          · exact absurd hc.symm hf1
          · exact hc
        have hge := (List.pairwise_cons.mp hsorted).1 _ hEPtail
        simp only at hge
        omega
  · intro owners a b hma hmb hab hcnt hmax
    have hperm := sortFreqs_perm (frequency owners)
    have hsorted := sortFreqs_sorted (frequency owners)
    have hEA : (a, owners.count a) ∈ sortFreqs (frequency owners) :=
      hperm.mem_iff.mpr (mem_frequency_iff.mpr ⟨hma, rfl⟩)
    have hEB : (b, owners.count b) ∈ sortFreqs (frequency owners) :=
      hperm.mem_iff.mpr (mem_frequency_iff.mpr ⟨hmb, rfl⟩)
    have hval : ∀ f ∈ sortFreqs (frequency owners),
        f.1 ∈ owners ∧ f.2 = owners.count f.1 :=
      fun f hf => mem_frequency_iff.mp (hperm.mem_iff.mp hf)
    have hABne : (a, owners.count a) ≠ (b, owners.count b) := by
      intro hc
      exact hab (congrArg Prod.fst hc)
    rcases hs : sortFreqs (frequency owners) with _ | ⟨f1, _ | ⟨f2, rest⟩⟩
    · rw [hs] at hEA
      cases hEA
    · rw [hs] at hEA hEB
      exact absurd ((List.mem_singleton.mp hEA).trans
        (List.mem_singleton.mp hEB).symm) hABne
    · rw [hs] at hEA hEB hval hsorted
      have hf1le : f1.2 ≤ owners.count a := by
        obtain ⟨hm, hc⟩ := hval f1 (by simp)
        rw [hc]
        exact hmax f1.1 hm
      have hf2le : f2.2 ≤ owners.count a := by
        obtain ⟨hm, hc⟩ := hval f2 (by simp)
        rw [hc]
        exact hmax f2.1 hm
      have hpc := List.pairwise_cons.mp hsorted
      have hpc2 := List.pairwise_cons.mp hpc.2
      have hf1ge : owners.count a ≤ f1.2 := by
        rcases List.mem_cons.mp hEA with hc | hc
        · rw [← hc]
        · exact hpc.1 _ hc
      have hf2ge : owners.count a ≤ f2.2 := by
        rcases List.mem_cons.mp hEA with hcA | hcA
        · rcases List.mem_cons.mp hEB with hcB | hcB
          · exact absurd (hcA.trans hcB.symm) hABne
          · rcases List.mem_cons.mp hcB with hcB2 | hcB2
            · rw [← hcB2, ← hcnt]
            · have := hpc2.1 _ hcB2
              simp only at this
              omega
        · rcases List.mem_cons.mp hcA with hcA2 | hcA2
          · rw [← hcA2]
          · have := hpc2.1 _ hcA2
            simp only at this
            omega
      rw [determineOwner, hs]
      have heq : (f1.2 == f2.2) = true := by
        simp only [beq_iff_eq]
        omega
      dsimp only
      rw [heq]
      simp

/-- Witness for C3 at concrete owner lists. -/
theorem C3_ownership_witness :
    determineOwner [.owning 0, .owning 0, .owning 1] = some (.owning 0) ∧
    determineOwner [.owning 0, .owning 1] = some Owner.none ∧
    applyScores [⟨[], 0⟩] [(Owner.none, 7)] = applyScores [⟨[], 0⟩] [] := by
  refine ⟨?_, ?_, C3_ownership.2.2 [⟨[], 0⟩] 7 []⟩
  · exact C3_ownership.1 [.owning 0, .owning 0, .owning 1] 0 (by decide)
      (by decide)
  · exact C3_ownership.2.1 [.owning 0, .owning 1] (.owning 0) (.owning 1)
      (by decide) (by decide) (by decide) (by decide) (by decide)

unseal gameTryPlaceGo List.mergeSort List.merge in
/-- C2 (code bug evidence): the very first placement of a single tile
creates only singleton terms; the surviving-term list is empty, and the
source hits `assert!(!self.is_first_placement || terms.len() == 1)` — which
runs *before* the zero-surviving-terms check — and panics instead of
reporting the recoverable `InvalidPlacement`.  The second conjunct shows the
same move on a non-first turn takes the intended recoverable path. -/
theorem C2_first_singleton_placement_panics :
    placeOnBoard (ScrabbleGame.new 4 [[.num1], [.num2]])
      ⟨[.num1], (0, 0), .horizontal⟩ = .panic ∧
    placeOnBoard
        { ScrabbleGame.new 4 [[.num1], [.num2]] with isFirstPlacement := false }
        ⟨[.num1], (0, 0), .horizontal⟩ =
      .err (.invalidPlacement "Terms of length 1 are not allowed!")
        { ScrabbleGame.new 4 [[.num1], [.num2]] with
            isFirstPlacement := false } := by
  constructor
  · rfl
  · rfl

/-! ## First-placement lemmas -/

/-- `get_term` at a non-walkable anchor collects nothing and hits the
empty-frequency assert. -/
theorem getTerm_not_walkable {b : GameBoard} {a : Position} {d : Direction}
    (h : b.walkable a = false) : getTerm b a d = none := by
  have hstop : (b.isOutOfBounds a || b.isEmpty a) = true := by
    rw [stop_iff_not_walkable, h]
    rfl
  have hcol : ∀ step : Int, collectToTermEnd b a d step = [] := by
    intro step
    rw [collectToTermEnd, collectGo, movePosition_zero, if_pos hstop]
  have hsf : sortFreqs [] = [] := by rw [sortFreqs, List.mergeSort_nil]
  have hdo : determineOwner ([] : List Owner) = none := by
    rw [determineOwner, show frequency ([] : List Owner) = [] from rfl, hsf]
  rw [getTerm, termPositions, hcol, hcol]
  simp only [List.reverse_nil, List.drop_nil, List.nil_append, List.mapM_nil]
  rw [show List.map Prod.snd ([] : List Cell) = [] from rfl, hdo]

/-- `determineOwner` of a non-empty constant list yields that owner. -/
theorem determineOwner_const {o : Owner} {l : List Owner} (hne : l ≠ [])
    (hall : ∀ x ∈ l, x = o) : determineOwner l = some o := by
  have hdedup : l.dedup = [o] := by
    have hnodup := l.nodup_dedup
    have hmem : ∀ x, x ∈ l.dedup → x = o :=
      fun x hx => hall x (List.mem_dedup.mp hx)
    have homem : o ∈ l.dedup := by
      rcases List.exists_mem_of_ne_nil l hne with ⟨x, hx⟩
      rw [← hall x hx]
      exact List.mem_dedup.mpr hx
    cases hd : l.dedup with
    | nil =>
      rw [hd] at homem
      cases homem
    | cons x rest =>
      rw [hd] at hnodup hmem homem
      have hx : x = o := hmem x (List.mem_cons_self x rest)
      cases hrest : rest with
      | nil => rw [hx]
      | cons y rest2 =>
        exfalso
        rw [hrest] at hnodup hmem
        have hy : y = o := hmem y (by simp)
        rw [List.nodup_cons] at hnodup
        exact hnodup.1 (by rw [hx, ← hy]; simp)
  have hfreq : frequency l = [(o, l.count o)] := by
    rw [frequency, hdedup]
    rfl
  rw [determineOwner, hfreq, sortFreqs, List.mergeSort_singleton]

/-- `mapM id` over a list of `some`s built by a map. -/
theorem mapM_id_map_some {α β : Type} (f : β → α) :
    ∀ l : List β, (l.map (fun x => some (f x))).mapM id = some (l.map f)
  | [] => rfl
  | x :: rest => by
    rw [List.map_cons, List.mapM_cons, mapM_id_map_some f rest]
    rfl

/-- A position reached by a non-zero move along the orthogonal axis is not a
placement position. -/
theorem posAt_ortho {p : Placement} {j : Int} {i : Int} {j' : Int}
    (h : p.posAt j' = movePosition (p.posAt j) i p.direction.orthogonal) :
    i = 0 ∧ j' = j := by
  rcases p with ⟨ls, ⟨x, y⟩, dir⟩
  cases dir <;>
    (simp [Placement.posAt, movePosition, Direction.asVec,
      Direction.orthogonal, Prod.ext_iff] at h; omega)

/-- Inversion for `mapM id` on a cons cell. -/
theorem mapM_id_cons_inv {α : Type} {x : Option α} {xs : List (Option α)}
    {r : List α} (h : (x :: xs).mapM id = some r) :
    ∃ a as, x = some a ∧ xs.mapM id = some as ∧ r = a :: as := by
  rw [List.mapM_cons] at h
  cases hx : x with
  | none =>
    rw [hx] at h
    cases h
  | some a =>
    rw [hx] at h
    cases has : xs.mapM id with
    | none =>
      rw [has] at h
      cases h
    | some as =>
      rw [has] at h
      refine ⟨a, as, rfl, rfl, ?_⟩
      cases h
      rfl

/-- Every element produced by `mapM id` over a mapped list comes from a
`some` of the mapping. -/
theorem mapM_id_map_mem {α β : Type} (f : β → Option α) :
    ∀ (l : List β) (r : List α), (l.map f).mapM id = some r →
      ∀ e ∈ r, ∃ x ∈ l, f x = some e
  | [], r, h, e, he => by
    cases Option.some_inj.mp h
    cases he
  | x :: rest, r, h, e, he => by
    rw [List.map_cons] at h
    obtain ⟨a, as, ha, has, rfl⟩ := mapM_id_cons_inv h
    rcases List.mem_cons.mp he with rfl | he2
    · exact ⟨x, List.mem_cons_self x rest, ha⟩
    · obtain ⟨y, hy, hfy⟩ := mapM_id_map_mem f rest as has e he2
      exact ⟨y, List.mem_cons_of_mem x hy, hfy⟩

/-- C5: the first successful placement of a game yields exactly one scored
term — the main term along the placement's own axis, whose tokens are the
placement's letters — and its value is credited to the placing player. -/
theorem C5_first_placement_single_term (g : ScrabbleGame) (p : Placement)
    (n : Nat) (pl : Player) (g' : ScrabbleGame)
    (hboard : g.board = GameBoard.new n)
    (hfirst : g.isFirstPlacement = true)
    (hpl : g.players.get? g.currentPlayer = some pl)
    (hlet : ∀ l ∈ p.letters, l ≠ .empty)
    (hok : placeOnBoard g p = .ok g') :
    ∃ (b2 : GameBoard) (termsOwners : List (Term × Owner)) (v : Int),
      gameTryPlace g.currentPlayer p g.board = .ok b2 ∧
      getPlacementTerms b2 p = some termsOwners ∧
      termsOwners.filter (fun t => !t.1.isSingleton) =
        [(⟨p.letters⟩, Owner.owning g.currentPlayer)] ∧
      Term.evaluate ⟨p.letters⟩ = .ok v ∧
      (∀ pl2, g'.players.get? g.currentPlayer = some pl2 →
        pl2.score = pl.score + v) ∧
      (∀ i, i ≠ g.currentPlayer →
        (g'.players.get? i).map Player.score =
          (g.players.get? i).map Player.score) := by
  classical
  obtain ⟨pl0, newBag, b2, termsOwners, players2, hpl0, hcons, htp, hterms,
    hassert, hvalid, hempty, happ, hg'⟩ := placeOnBoard_ok_inv hok
  rw [hpl] at hpl0
  cases Option.some_inj.mp hpl0
  have hterms0 := hterms
  have hwf : g.board.WF := by
    rw [hboard]
    exact wf_new n
  obtain ⟨hsz, hd2, hcells, hagree⟩ :=
    (gameTryPlace_spec g.currentPlayer p hwf).2 b2 htp
  set cur := g.currentPlayer with hcur
  set len := p.letters.length with hlen
  have hb0cell : ∀ q : Position, g.board.getCell q = (.empty, .none) := by
    intro q
    rw [hboard, getCell_new]
  have hw2 : ∀ q : Position, b2.walkable q = true ↔
      ∃ j : Nat, j < len ∧ p.posAt j = q := by
    intro q
    constructor
    · intro hwq
      obtain ⟨hin2, hne⟩ := (walkable_iff b2 q).mp hwq
      by_contra hno
      push_neg at hno
      have hin0 : g.board.inBounds q := (inBounds_of_size_eq hsz q).mp hin2
      have hag := hagree q hin0 (fun j hj => hno j hj)
      rw [hb0cell] at hag
      rw [hag] at hne
      exact hne rfl
    · intro ⟨j, hj, hq⟩
      obtain ⟨hin0, -, hcell⟩ := hcells j hj
      rw [← hq]
      refine (walkable_iff b2 _).mpr ⟨(inBounds_of_size_eq hsz _).mpr hin0, ?_⟩
      rw [hcell]
      have hgd : p.letters.getD j .empty = p.letters[j] := by
        rw [List.getD_eq_getElem?_getD, List.getElem?_eq_getElem hj]
        rfl
      rw [hgd]
      exact hlet _ (List.getElem_mem hj)
  have hlen0 : 0 < len := by
    by_contra h0
    have hnil : p.letters = [] := List.length_eq_zero.mp (by omega)
    have hnw : b2.walkable p.startPos = false := by
      refine bool_ne_true fun hwq => ?_
      obtain ⟨j, hj, -⟩ := (hw2 p.startPos).mp hwq
      rw [hlen, hnil] at hj
      cases hj
    rw [getPlacementTerms, getTerm_not_walkable hnw] at hterms
    cases hterms
  have hstart : p.posAt 0 = p.startPos :=
    movePosition_zero p.startPos p.direction
  have hw0 : b2.walkable p.startPos = true := by
    rw [← hstart]
    exact (hw2 _).mpr ⟨0, hlen0, rfl⟩
  obtain ⟨k, m, o, heq, hwint, hbs, hfs, ho, hgt⟩ :=
    termPositions_spec b2 p.startPos p.direction hw0
  have hk0 : k = 0 := by
    have hwk := hwint (-(k : Int)) (le_refl _) (by omega)
    obtain ⟨j, hj, hpj⟩ := (hw2 _).mp hwk
    have := @posAt_inj p (j : Int) (-(k : Int)) hpj
    omega
  have hm1 : m + 1 = len := by
    have hwm := hwint (m : Int) (by omega) (le_refl _)
    obtain ⟨j, hj, hpj⟩ := (hw2 _).mp hwm
    have hjm := @posAt_inj p (j : Int) ((m : Int)) hpj
    have hmlt : m < len := by omega
    by_contra hne
    have hm1lt : m + 1 < len := by omega
    have hwm1 : b2.walkable (movePosition p.startPos ((m : Int) + 1)
        p.direction) = true := by
      refine (hw2 _).mpr ⟨m + 1, hm1lt, ?_⟩
      show movePosition p.startPos ((m + 1 : Nat) : Int) p.direction = _
      congr 1
    rw [hwm1] at hfs
    cases hfs
  have hpos_main : termPositions b2 p.startPos p.direction =
      (List.range len).map (fun (t : Nat) => p.posAt (t : Int)) := by
    rw [heq, hk0]
    rw [show 0 + 1 + m = len from by omega]
    apply List.map_congr_left
    intro t _
    show movePosition p.startPos ((t : Int) - ((0 : Nat) : Int)) p.direction =
      p.posAt (t : Int)
    rw [Placement.posAt]
    congr 1
  have htok : (termPositions b2 p.startPos p.direction).map
      (fun q => (b2.getCell q).1) = p.letters := by
    rw [hpos_main, List.map_map]
    apply List.ext_getElem
    · simp only [List.length_map, List.length_range]
    · intro i h1 h2
      simp only [List.getElem_map, List.getElem_range, Function.comp_apply]
      have hi : i < len := by simpa using h1
      obtain ⟨-, -, hcell⟩ := hcells i hi
      rw [hcell]
      rw [List.getD_eq_getElem?_getD, List.getElem?_eq_getElem hi]
      rfl
  have howner : o = Owner.owning cur := by
    have hconst : ∀ x ∈ (termPositions b2 p.startPos p.direction).map
        (fun q => (b2.getCell q).2), x = Owner.owning cur := by
      intro x hx
      rw [hpos_main, List.map_map] at hx
      rcases List.mem_map.mp hx with ⟨t, ht, hxt⟩
      have hti : t < len := by simpa using ht
      obtain ⟨-, -, hcell⟩ := hcells t hti
      rw [← hxt]
      simp only [Function.comp_apply]
      rw [hcell]
    have hnen : (termPositions b2 p.startPos p.direction).map
        (fun q => (b2.getCell q).2) ≠ [] := by
      rw [hpos_main, List.map_map]
      simp only [ne_eq, List.map_eq_nil_iff, List.range_eq_nil]
      omega
    have hdc := determineOwner_const hnen hconst
    rw [ho] at hdc
    exact Option.some_inj.mp hdc
  have hmain : getTerm b2 p.startPos p.direction =
      some (⟨p.letters⟩, Owner.owning cur) := by
    rw [hgt, htok, howner]
  have horth : ∀ off : Nat, off < len → ∃ oo : Owner,
      getTerm b2 (movePosition p.startPos (off : Int) p.direction)
        p.direction.orthogonal =
      some (⟨[(b2.getCell (p.posAt (off : Int))).1]⟩, oo) := by
    intro off hoff
    have hwj : b2.walkable
        (movePosition p.startPos (off : Int) p.direction) = true :=
      (hw2 _).mpr ⟨off, hoff, rfl⟩
    obtain ⟨k2, m2, o2, heq2, hwint2, hbs2, hfs2, ho2, hgt2⟩ :=
      termPositions_spec b2 (movePosition p.startPos (off : Int) p.direction)
        p.direction.orthogonal hwj
    have hk20 : k2 = 0 := by
      have hwk := hwint2 (-(k2 : Int)) (le_refl _) (by omega)
      obtain ⟨j, hj, hpj⟩ := (hw2 _).mp hwk
      have := posAt_ortho (show p.posAt (j : Int) =
        movePosition (p.posAt (off : Int)) (-(k2 : Int))
          p.direction.orthogonal from hpj)
      omega
    have hm20 : m2 = 0 := by
      have hwm := hwint2 (m2 : Int) (by omega) (le_refl _)
      obtain ⟨j, hj, hpj⟩ := (hw2 _).mp hwm
      have := posAt_ortho (show p.posAt (j : Int) =
        movePosition (p.posAt (off : Int)) ((m2 : Int))
          p.direction.orthogonal from hpj)
      omega
    have hpos1 : termPositions b2
        (movePosition p.startPos (off : Int) p.direction)
        p.direction.orthogonal =
        [movePosition p.startPos (off : Int) p.direction] := by
      rw [heq2, hk20, hm20]
      simp only [show (0 + 1 + 0) = 1 from rfl,
        show List.range 1 = [0] from rfl, List.map_cons, List.map_nil]
      norm_num [movePosition_zero]
    refine ⟨o2, ?_⟩
    rw [hgt2, hpos1]
    rfl
  rw [getPlacementTerms] at hterms
  obtain ⟨a, as, ha, has, hto⟩ := mapM_id_cons_inv hterms
  rw [hmain] at ha
  have ha' : a = (⟨p.letters⟩, Owner.owning cur) := Option.some_inj.mp ha.symm
  have hsing : ∀ e ∈ as, e.1.isSingleton = true := by
    intro e he
    obtain ⟨off, hoffmem, hoffeq⟩ := mapM_id_map_mem _ _ as has e he
    have hofflen : off < len := List.mem_range.mp hoffmem
    obtain ⟨oo, hoo⟩ := horth off hofflen
    rw [hoo] at hoffeq
    rw [← Option.some_inj.mp hoffeq]
    rfl
  have hfas : as.filter (fun t => !t.1.isSingleton) = [] := by
    rw [List.filter_eq_nil_iff]
    intro e he
    rw [hsing e he]
    simp
  have hnotsing : (⟨p.letters⟩ : Term).isSingleton = false := by
    cases hls : (⟨p.letters⟩ : Term).isSingleton
    · rfl
    · exfalso
      rw [hto, ha'] at hempty
      simp only [List.filter_cons, hls, Bool.not_true, Bool.false_eq_true,
        if_false, hfas, List.map_nil, List.isEmpty_nil] at hempty
      cases hempty
  have hfilter : termsOwners.filter (fun t => !t.1.isSingleton) =
      [(⟨p.letters⟩, Owner.owning cur)] := by
    rw [hto, ha']
    simp only [List.filter_cons, hnotsing, Bool.not_false, if_true, hfas]
  have hv : ∃ v, Term.evaluate ⟨p.letters⟩ = .ok v := by
    rw [hfilter] at hvalid
    cases hev : Term.evaluate ⟨p.letters⟩ with
    | error e =>
      rw [List.map_cons, List.map_nil, List.map_cons, List.map_nil, hev]
        at hvalid
      simp [Except.toOption] at hvalid
    | ok v => exact ⟨v, rfl⟩
  obtain ⟨v, hv⟩ := hv
  have hcurlt : cur < g.players.length := by
    by_contra hge
    rw [List.get?_eq_getElem?, List.getElem?_eq_none (Nat.le_of_not_lt hge)]
      at hpl
    cases hpl
  rw [hfilter] at happ
  simp only [List.map_cons, List.map_nil, hv, List.zip_cons_cons,
    List.zip_nil_right, Except.toOption, Option.getD_some] at happ
  have hget2 : (g.players.set cur { pl with letterBag := newBag }).get? cur =
      some { pl with letterBag := newBag } := by
    rw [List.get?_eq_getElem?]
    exact List.getElem?_set_self hcurlt
  simp only [applyScores, hget2] at happ
  have hplayers2 : players2 =
      g.players.set cur { letterBag := newBag, score := pl.score + v } := by
    have hinj := Option.some_inj.mp happ
    rw [← hinj, List.set_set]
  refine ⟨b2, termsOwners, v, htp, hterms0, hfilter, hv, ?_, ?_⟩
  · intro pl2 hpl2
    rw [hg'] at hpl2
    simp only at hpl2
    rw [hplayers2, List.get?_eq_getElem?,
      List.getElem?_set_self hcurlt] at hpl2
    rw [← Option.some_inj.mp hpl2]
  · intro i hi
    rw [hg']
    simp only
    rw [hplayers2, List.get?_eq_getElem?, List.get?_eq_getElem?,
      List.getElem?_set_ne (fun hc => hi hc.symm)]

unseal gameTryPlaceGo List.mergeSort List.merge in
/-- Witness for C5: the concrete first placement `12+` at `(0,0)` horizontal
succeeds, yields the single scored main term `12+`, and credits its value to
player 0. -/
theorem C5_first_placement_single_term_witness :
    ∃ (b2 : GameBoard) (termsOwners : List (Term × Owner)) (v : Int),
      gameTryPlace
          (ScrabbleGame.new 4
            [[.num1, .num2, .plus], [.num3, .num4, .dot]]).currentPlayer
          ⟨[.num1, .num2, .plus], (0, 0), .horizontal⟩
          (ScrabbleGame.new 4
            [[.num1, .num2, .plus], [.num3, .num4, .dot]]).board = .ok b2 ∧
      getPlacementTerms b2 ⟨[.num1, .num2, .plus], (0, 0), .horizontal⟩ =
        some termsOwners ∧
      termsOwners.filter (fun t => !t.1.isSingleton) =
        [(⟨[.num1, .num2, .plus]⟩,
          Owner.owning (ScrabbleGame.new 4
            [[.num1, .num2, .plus], [.num3, .num4, .dot]]).currentPlayer)] ∧
      Term.evaluate ⟨[.num1, .num2, .plus]⟩ = .ok v ∧
      (∀ pl2,
        (match placeOnBoard
            (ScrabbleGame.new 4 [[.num1, .num2, .plus], [.num3, .num4, .dot]])
            ⟨[.num1, .num2, .plus], (0, 0), .horizontal⟩ with
          | .ok g2 => g2
          | .err _ g2 => g2
          | .panic =>
            ScrabbleGame.new 4
              [[.num1, .num2, .plus], [.num3, .num4, .dot]]).players.get?
            (ScrabbleGame.new 4
              [[.num1, .num2, .plus], [.num3, .num4, .dot]]).currentPlayer =
          some pl2 →
        pl2.score = (⟨[.num1, .num2, .plus], 0⟩ : Player).score + v) := by
  have hok : placeOnBoard
      (ScrabbleGame.new 4 [[.num1, .num2, .plus], [.num3, .num4, .dot]])
      ⟨[.num1, .num2, .plus], (0, 0), .horizontal⟩ =
      .ok { players := [⟨[], 3⟩, ⟨[.num3, .num4, .dot], 0⟩],
            currentPlayer := 1,
            board := ((GameBoard.new 4).setCell (0, 0)
              (.num1, .owning 0)).setCell (1, 0)
                (.num2, .owning 0) |>.setCell (2, 0) (.plus, .owning 0),
            isFirstPlacement := false } := by rfl
  obtain ⟨b2, termsOwners, v, h1, h2, h3, h4, h5, -⟩ :=
    C5_first_placement_single_term
      (ScrabbleGame.new 4 [[.num1, .num2, .plus], [.num3, .num4, .dot]])
      ⟨[.num1, .num2, .plus], (0, 0), .horizontal⟩ 4
      ⟨[.num1, .num2, .plus], 0⟩ _ rfl rfl rfl (by decide) hok
  refine ⟨b2, termsOwners, v, h1, h2, h3, h4, ?_⟩
  intro pl2 hpl2
  apply h5
  rw [hok] at hpl2
  exact hpl2
